import Mathlib

/-!
Verification of the dataset-ingestion pipeline of the csv-analysis-agent
repository (`src/data_processing/file_processor.py`), as a shallow embedding.

Modelling conventions:
* Python `str` is modelled as `List Char` (`PyStr`); Python `bytes` as
  `List Nat` with values below 256.
* The Unicode classification functions used by `normalize_string`
  (`unicodedata.normalize('NFD', ·)`, category `Mn`, `re` classes `\s`
  and `\w`, `str.lower`) are embedded faithfully for the character
  repertoire exercised here: ASCII, the Latin-1 letters of Portuguese
  with their canonical decompositions, `ß`, `€`, the combining marks
  produced by those decompositions, and the Latin-1 control/space
  characters.  Theorems that quantify over arbitrary strings restrict
  to characters whose modelled decomposition is ASCII where the claim
  needs Unicode fidelity beyond this set.
* `pandas.read_csv` is modelled at the level the claims use it: decode
  (with the exact encoding-fallback loop of `read_csv_file`) followed by
  a line/comma split with pandas' blank-line skipping; a cell is the raw
  field text (`none` models pandas' NaN fill for short rows).  Parse
  failure (`EmptyDataError` on no data, `ParserError` on a row wider
  than the header) is `none`.
* The filesystem (`data` directory) is a name-to-bytes association list
  inside `Sys`; Streamlit messages (`st.error` / `st.warning`) are an
  appended message log.
-/

abbrev PyStr := List Char

/-- Python `re` class `\s` together with `str.strip`'s whitespace set,
restricted to the modelled repertoire: tab, LF, VT, FF, CR, the
FS/GS/RS/US controls, space, NEL (U+0085) and NBSP (U+00A0). -/
def isPySpace (c : Char) : Bool :=
  c.toNat = 9 ∨ c.toNat = 10 ∨ c.toNat = 11 ∨ c.toNat = 12 ∨ c.toNat = 13 ∨
  c.toNat = 28 ∨ c.toNat = 29 ∨ c.toNat = 30 ∨ c.toNat = 31 ∨ c.toNat = 32 ∨
  c.toNat = 133 ∨ c.toNat = 160

/-- ASCII word characters `[A-Za-z0-9_]`. -/
def isAsciiWord (c : Char) : Bool :=
  (97 ≤ c.toNat ∧ c.toNat ≤ 122) ∨ (65 ≤ c.toNat ∧ c.toNat ≤ 90) ∨
  (48 ≤ c.toNat ∧ c.toNat ≤ 57) ∨ c.toNat = 95

/-- Python `re` class `\w` (characters with the Unicode word property),
restricted to the modelled repertoire: ASCII word characters plus the
Latin-1 letters ß à á ã ç é ê í ó õ ú and their upper-case forms. -/
def isPyWord (c : Char) : Bool :=
  isAsciiWord c ∨
  c.toNat = 0xDF ∨ c.toNat = 0xE0 ∨ c.toNat = 0xE1 ∨ c.toNat = 0xE3 ∨
  c.toNat = 0xE7 ∨ c.toNat = 0xE9 ∨ c.toNat = 0xEA ∨ c.toNat = 0xED ∨
  c.toNat = 0xF3 ∨ c.toNat = 0xF4 ∨ c.toNat = 0xF5 ∨ c.toNat = 0xFA ∨
  c.toNat = 0xC0 ∨ c.toNat = 0xC1 ∨ c.toNat = 0xC3 ∨ c.toNat = 0xC7 ∨
  c.toNat = 0xC9 ∨ c.toNat = 0xCA ∨ c.toNat = 0xCD ∨ c.toNat = 0xD3 ∨
  c.toNat = 0xD4 ∨ c.toNat = 0xD5 ∨ c.toNat = 0xDA

/-- Unicode general category `Mn` (non-spacing combining mark),
restricted to the Combining Diacritical Marks block U+0300 - U+036F,
which contains every mark produced by the modelled decompositions. -/
def isMn (c : Char) : Bool :=
  0x300 ≤ c.toNat ∧ c.toNat ≤ 0x36F

/-- `unicodedata.normalize('NFD', ·)`, per character, restricted to the
modelled repertoire (ASCII and the undecomposable ß and € are inert;
accented Latin-1 letters decompose to base letter plus combining mark). -/
def pyNFD (c : Char) : List Char :=
  if c.toNat < 0x80 then [c]
  else if c.toNat = 0xE7 then ['c', '\u0327']      -- ç
  else if c.toNat = 0xC7 then ['C', '\u0327']      -- Ç
  else if c.toNat = 0xE9 then ['e', '\u0301']      -- é
  else if c.toNat = 0xC9 then ['E', '\u0301']      -- É
  else if c.toNat = 0xE1 then ['a', '\u0301']      -- á
  else if c.toNat = 0xC1 then ['A', '\u0301']      -- Á
  else if c.toNat = 0xE0 then ['a', '\u0300']      -- à
  else if c.toNat = 0xC0 then ['A', '\u0300']      -- À
  else if c.toNat = 0xE3 then ['a', '\u0303']      -- ã
  else if c.toNat = 0xC3 then ['A', '\u0303']      -- Ã
  else if c.toNat = 0xF5 then ['o', '\u0303']      -- õ
  else if c.toNat = 0xD5 then ['O', '\u0303']      -- Õ
  else if c.toNat = 0xEA then ['e', '\u0302']      -- ê
  else if c.toNat = 0xCA then ['E', '\u0302']      -- Ê
  else if c.toNat = 0xF4 then ['o', '\u0302']      -- ô
  else if c.toNat = 0xD4 then ['O', '\u0302']      -- Ô
  else if c.toNat = 0xED then ['i', '\u0301']      -- í
  else if c.toNat = 0xCD then ['I', '\u0301']      -- Í
  else if c.toNat = 0xF3 then ['o', '\u0301']      -- ó
  else if c.toNat = 0xD3 then ['O', '\u0301']      -- Ó
  else if c.toNat = 0xFA then ['u', '\u0301']      -- ú
  else if c.toNat = 0xDA then ['U', '\u0301']      -- Ú
  else [c]

/-- `str.lower`, per character, restricted to the modelled repertoire:
ASCII A-Z map down by 32, upper-case accented Latin-1 letters map to
their lower-case forms, everything else (including ß) is fixed. -/
def pyLowerTable : List (Nat × Char) :=
  [(0xC7, 'ç'), (0xC9, 'é'), (0xC1, 'á'), (0xC0, 'à'), (0xC3, 'ã'),
   (0xD5, 'õ'), (0xCA, 'ê'), (0xD4, 'ô'), (0xCD, 'í'), (0xD3, 'ó'), (0xDA, 'ú')]

def pyLower (c : Char) : Char :=
  if 65 ≤ c.toNat ∧ c.toNat ≤ 90 then Char.ofNat (c.toNat + 32)
  else if c.toNat < 0x80 then c
  else
    match pyLowerTable.find? (fun p => p.1 = c.toNat) with
    | some p => p.2
    | none => c

/-- `re.sub(p+, r, s)` for a character class `p`: every maximal run of
characters satisfying `p` is replaced by the single character `r`.
`inRun` records whether the previous character was inside such a run. -/
def subRunsGo (p : Char → Bool) (r : Char) : Bool → List Char → List Char
  | _, [] => []
  | inRun, c :: rest =>
    if p c then
      if inRun then subRunsGo p r true rest
      else r :: subRunsGo p r true rest
    else c :: subRunsGo p r false rest

def subRuns (p : Char → Bool) (r : Char) (s : List Char) : List Char :=
  subRunsGo p r false s

/-- Remove trailing characters satisfying `p` (the right half of
`str.strip`). -/
def dropTrailing (p : Char → Bool) : List Char → List Char
  | [] => []
  | c :: rest =>
    match dropTrailing p rest with
    | [] => if p c then [] else [c]
    | d :: r => c :: d :: r

/-- `str.strip(chars)` for a character class `p`: remove leading and
trailing characters satisfying `p`. -/
def pyStrip (p : Char → Bool) (s : List Char) : List Char :=
  dropTrailing p (s.dropWhile p)

/-- `normalize_string` from `DataFileProcessor.normalize_column_names`:
NFD-decompose, strip combining marks, `strip()`, collapse whitespace
runs to `_`, replace non-word characters by `_`, collapse `_` runs,
strip `_`, lower-case, and substitute the fixed placeholder for an
empty result.  (The `str(text)` coercion branch is not modelled: parsed
CSV headers are always strings.) -/
def normalize_string (text : PyStr) : PyStr :=
  let normalized := text.flatMap pyNFD
  let without_accents := normalized.filter (fun c => !(isMn c))
  let cleaned1 := subRuns isPySpace '_' (pyStrip isPySpace without_accents)
  let cleaned2 := cleaned1.map (fun c => if isPyWord c then c else '_')
  let cleaned3 := subRuns (fun c => c = '_') '_' cleaned2
  let cleaned4 := (pyStrip (fun c => c = '_') cleaned3).map pyLower
  if cleaned4 = [] then "coluna_sem_nome".toList else cleaned4

/-- One decimal digit as a character. -/
def digitChar : Nat → Char
  | 0 => '0' | 1 => '1' | 2 => '2' | 3 => '3' | 4 => '4'
  | 5 => '5' | 6 => '6' | 7 => '7' | 8 => '8' | _ => '9'

/-- Decimal rendering of a natural number (the `{count}` part of the
f-string suffix), with fuel bounded by the number itself. -/
def natToStringCore : Nat → Nat → List Char → List Char
  | 0, _, acc => acc
  | fuel + 1, n, acc =>
    if n < 10 then digitChar n :: acc
    else natToStringCore fuel (n / 10) (digitChar (n % 10) :: acc)

def natToString (n : Nat) : PyStr :=
  natToStringCore (n + 1) n []

/-- Lookup in the `column_counts` dict (modelled as an association list
in insertion order). -/
def lookupCount : List (PyStr × Nat) → PyStr → Option Nat
  | [], _ => none
  | (k, v) :: m, n => if k = n then some v else lookupCount m n

/-- In-place dict update `column_counts[k] = v` (key known present). -/
def setCount : List (PyStr × Nat) → PyStr → Nat → List (PyStr × Nat)
  | [], _, _ => []
  | (k', v') :: m, k, v => if k' = k then (k, v) :: m else (k', v') :: setCount m k v

/-- The column loop of `normalize_column_names`: for each column,
normalize; on a repeated normalized form bump its counter and append
`_{count}`; on a first occurrence record counter 0 and keep the bare
form.  Note the suffixed name is **not** recorded in the dict. -/
def normalizeColumnsGo (m : List (PyStr × Nat)) : List PyStr → List PyStr
  | [] => []
  | col :: rest =>
    match lookupCount m (normalize_string col) with
    | some k =>
        (normalize_string col ++ '_' :: natToString (k + 1)) ::
          normalizeColumnsGo (setCount m (normalize_string col) (k + 1)) rest
    | none =>
        normalize_string col :: normalizeColumnsGo (m ++ [(normalize_string col, 0)]) rest

/-- A pandas DataFrame as the claims use it: named columns and rows of
cells, a cell being the raw field text (`none` = NaN). -/
structure DataFrame where
  columns : List PyStr
  rows : List (List (Option PyStr))
deriving DecidableEq, Repr

/-- `DataFileProcessor.normalize_column_names`: copy the frame and
replace the column names by the normalized, collision-suffixed names.
(The `st.info` change report does not affect the returned frame and is
not modelled.) -/
def normalize_column_names (df : DataFrame) : DataFrame :=
  { columns := normalizeColumnsGo [] df.columns, rows := df.rows }

/-! ## Text codecs

The byte-level behaviour of the Python codecs named in
`read_csv_file`'s encoding list.  UTF-8 is the strict decoder (invalid
lead bytes, truncated sequences, bad continuation bytes, overlong
forms, surrogates and out-of-range values all fail, as in CPython);
`latin-1` and `iso-8859-1` are the identity on bytes 0-255 and never
fail; `cp1252` differs from latin-1 on 0x80-0x9F, where five bytes are
undefined and fail. -/

def utf8EncodeChar (n : Nat) : List Nat :=
  if n < 0x80 then [n]
  else if n < 0x800 then [0xC0 + n / 64, 0x80 + n % 64]
  else if n < 0x10000 then
    [0xE0 + n / 4096, 0x80 + (n / 64) % 64, 0x80 + n % 64]
  else
    [0xF0 + n / 262144, 0x80 + (n / 4096) % 64, 0x80 + (n / 64) % 64, 0x80 + n % 64]

def utf8Encode (s : PyStr) : List Nat :=
  s.flatMap (fun c => utf8EncodeChar c.toNat)

/-- A UTF-8 continuation byte. -/
def isCont (b : Nat) : Bool := 0x80 ≤ b ∧ b < 0xC0

/-- Decode one UTF-8-encoded scalar from `b :: bs`, returning the
character and the remaining bytes; all of CPython's strictness checks
(invalid lead, truncation, bad continuation bytes, overlong forms,
surrogates, out-of-range) yield `none`. -/
def decodeUtf8Step (b : Nat) (bs : List Nat) : Option (Char × List Nat) :=
  if b < 0x80 then some (Char.ofNat b, bs)
  else if b < 0xC2 then none
  else if b < 0xE0 then
    match bs with
    | b1 :: bs1 =>
      if isCont b1 then some (Char.ofNat ((b - 0xC0) * 64 + (b1 - 0x80)), bs1) else none
    | [] => none
  else if b < 0xF0 then
    match bs with
    | b1 :: b2 :: bs2 =>
      if isCont b1 && isCont b2 then
        if (b - 0xE0) * 4096 + (b1 - 0x80) * 64 + (b2 - 0x80) < 0x800 then none
        else if 0xD800 ≤ (b - 0xE0) * 4096 + (b1 - 0x80) * 64 + (b2 - 0x80) ∧
            (b - 0xE0) * 4096 + (b1 - 0x80) * 64 + (b2 - 0x80) < 0xE000 then none
        else some (Char.ofNat ((b - 0xE0) * 4096 + (b1 - 0x80) * 64 + (b2 - 0x80)), bs2)
      else none
    | _ => none
  else if b < 0xF5 then
    match bs with
    | b1 :: b2 :: b3 :: bs3 =>
      if isCont b1 && isCont b2 && isCont b3 then
        if (b - 0xF0) * 262144 + (b1 - 0x80) * 4096 + (b2 - 0x80) * 64 + (b3 - 0x80)
            < 0x10000 then none
        else if 0x110000 ≤ (b - 0xF0) * 262144 + (b1 - 0x80) * 4096 + (b2 - 0x80) * 64
            + (b3 - 0x80) then none
        else some (Char.ofNat ((b - 0xF0) * 262144 + (b1 - 0x80) * 4096 + (b2 - 0x80) * 64
            + (b3 - 0x80)), bs3)
      else none
    | _ => none
  else none

/-- Strict UTF-8 decoding, one scalar at a time; each step consumes at
least one byte, so fuel equal to the byte count never runs out. -/
def decodeUtf8Core : Nat → List Nat → Option (List Char)
  | _, [] => some []
  | 0, _ :: _ => none
  | fuel + 1, b :: bs =>
    match decodeUtf8Step b bs with
    | none => none
    | some (c, rest) => (decodeUtf8Core fuel rest).map (fun t => c :: t)

def decodeUtf8 (bs : List Nat) : Option (List Char) :=
  decodeUtf8Core bs.length bs

/-- `bytes.decode('utf-8', errors='ignore')`: invalid bytes are
discarded and decoding resumes (resynchronization at the byte after
the offending lead, approximating the ignore handler; fuel is the
number of bytes, each step consumes at least one).  Dead code in
`read_csv_file`: the loop's latin-1 attempt never fails. -/
def decodeUtf8LossyCore : Nat → List Nat → List Char
  | 0, _ => []
  | _, [] => []
  | fuel + 1, b :: bs =>
    if b < 0x80 then Char.ofNat b :: decodeUtf8LossyCore fuel bs
    else if b < 0xC2 then decodeUtf8LossyCore fuel bs
    else if b < 0xE0 then
      match bs with
      | b1 :: bs1 =>
        if isCont b1 then
          Char.ofNat ((b - 0xC0) * 64 + (b1 - 0x80)) :: decodeUtf8LossyCore fuel bs1
        else decodeUtf8LossyCore fuel bs
      | [] => []
    else if b < 0xF0 then
      match bs with
      | b1 :: b2 :: bs2 =>
        if isCont b1 && isCont b2 then
          let n := (b - 0xE0) * 4096 + (b1 - 0x80) * 64 + (b2 - 0x80)
          if n < 0x800 ∨ (0xD800 ≤ n ∧ n < 0xE000) then decodeUtf8LossyCore fuel bs
          else Char.ofNat n :: decodeUtf8LossyCore fuel bs2
        else decodeUtf8LossyCore fuel bs
      | _ => decodeUtf8LossyCore fuel bs
    else if b < 0xF5 then
      match bs with
      | b1 :: b2 :: b3 :: bs3 =>
        if isCont b1 && isCont b2 && isCont b3 then
          let n := (b - 0xF0) * 262144 + (b1 - 0x80) * 4096 + (b2 - 0x80) * 64 + (b3 - 0x80)
          if n < 0x10000 ∨ 0x110000 ≤ n then decodeUtf8LossyCore fuel bs
          else Char.ofNat n :: decodeUtf8LossyCore fuel bs3
        else decodeUtf8LossyCore fuel bs
      | _ => decodeUtf8LossyCore fuel bs
    else decodeUtf8LossyCore fuel bs

def decodeUtf8Lossy (bs : List Nat) : List Char :=
  decodeUtf8LossyCore bs.length bs

/-- `latin-1` / `iso-8859-1` decoding: total, byte-to-codepoint. -/
def decodeLatin1 (bs : List Nat) : List Char :=
  bs.map Char.ofNat

def encodeLatin1Char (c : Char) : Option Nat :=
  if c.toNat < 256 then some c.toNat else none

def latin1Encode (s : PyStr) : Option (List Nat) :=
  s.mapM encodeLatin1Char

/-- The cp1252 mapping of the 0x80-0x9F block (bytes 0x81, 0x8D, 0x8F,
0x90 and 0x9D are undefined in the codec and absent here). -/
def cp1252HighTable : List (Nat × Char) :=
  [(0x80, '€'), (0x82, '‚'), (0x83, 'ƒ'), (0x84, '„'), (0x85, '…'),
   (0x86, '†'), (0x87, '‡'), (0x88, 'ˆ'), (0x89, '‰'), (0x8A, 'Š'),
   (0x8B, '‹'), (0x8C, 'Œ'), (0x8E, 'Ž'), (0x91, '‘'), (0x92, '’'),
   (0x93, '“'), (0x94, '”'), (0x95, '•'), (0x96, '–'), (0x97, '—'),
   (0x98, '˜'), (0x99, '™'), (0x9A, 'š'), (0x9B, '›'), (0x9C, 'œ'),
   (0x9E, 'ž'), (0x9F, 'Ÿ')]

def decodeCp1252Byte (b : Nat) : Option Char :=
  if b < 0x80 ∨ (0xA0 ≤ b ∧ b < 0x100) then some (Char.ofNat b)
  else (cp1252HighTable.find? (fun p => p.1 = b)).map (fun p => p.2)

def decodeCp1252 (bs : List Nat) : Option (List Char) :=
  bs.mapM decodeCp1252Byte

def encodeCp1252Char (c : Char) : Option Nat :=
  if c.toNat < 0x80 ∨ (0xA0 ≤ c.toNat ∧ c.toNat < 0x100) then some c.toNat
  else (cp1252HighTable.find? (fun p => p.2 = c)).map (fun p => p.1)

def cp1252Encode (s : PyStr) : Option (List Nat) :=
  s.mapM encodeCp1252Char

/-- The four entries of `encodings = ['utf-8', 'latin-1', 'cp1252',
'iso-8859-1']`. -/
inductive PyEncoding
  | utf8 | latin1 | cp1252 | iso88591
deriving DecidableEq, Repr

/-- The decoding a `pd.read_csv(..., encoding = e)` call performs; a
`none` is the `UnicodeDecodeError` the loop in `read_csv_file`
catches. -/
def pyDecode : PyEncoding → List Nat → Option (List Char)
  | .utf8, bs => decodeUtf8 bs
  | .latin1, bs => some (decodeLatin1 bs)
  | .cp1252, bs => decodeCp1252 bs
  | .iso88591, bs => some (decodeLatin1 bs)

def encodings : List PyEncoding :=
  [.utf8, .latin1, .cp1252, .iso88591]

/-- The `for encoding in encodings` loop: the first encoding that does
not raise a `UnicodeDecodeError` wins. -/
def decodeLoop : List PyEncoding → List Nat → Option (List Char)
  | [], _ => none
  | e :: rest, bs =>
    match pyDecode e bs with
    | some t => some t
    | none => decodeLoop rest bs

/-- The text `read_csv_file` ends up parsing: the loop's winner, or the
lossy UTF-8 fallback after the loop (unreachable in fact, because the
latin-1 attempt accepts every byte sequence). -/
def readCsvText (bs : List Nat) : PyStr :=
  match decodeLoop encodings bs with
  | some t => t
  | none => decodeUtf8Lossy bs

/-! ## CSV parsing and the pipeline operations -/

/-- `str.split(sep)` on a single separator character; never returns an
empty list. -/
def splitSep (sep : Char) : List Char → List (List Char)
  | [] => [[]]
  | c :: rest =>
    match splitSep sep rest with
    | [] => [[]]
    | cur :: rs => if c = sep then [] :: cur :: rs else (c :: cur) :: rs

/-- The lines pandas parses: split on newline, skip blank lines
(`skip_blank_lines=True`, also absorbing a trailing newline). -/
def csvLines (text : PyStr) : List PyStr :=
  (splitSep '\n' text).filter (fun l => l ≠ [])

/-- Pad a row to the header width with NaN (pandas' fill for short
rows). -/
def padRow (n : Nat) (fields : List PyStr) : List (Option PyStr) :=
  fields.map some ++ List.replicate (n - fields.length) none

/-- `pd.read_csv` applied to already-decoded text, at the granularity
the claims need: first non-blank line is the header, remaining lines
are comma-split rows; no data at all is `EmptyDataError`, a row wider
than the header is `ParserError`, both modelled as `none`. -/
def parseCsv (text : PyStr) : Option DataFrame :=
  match csvLines text with
  | [] => none
  | header :: rest =>
    let cols := splitSep ',' header
    if rest.any (fun l => cols.length < (splitSep ',' l).length) then none
    else some { columns := cols
                rows := rest.map (fun l => padRow cols.length (splitSep ',' l)) }

/-- The parse outcome of the body of `read_csv_file` after the
persisting write: decode via the encoding loop (with the lossy
fallback) and parse.  `none` is the non-decode exception
(`EmptyDataError` / `ParserError`) that reaches the outer handler. -/
def parseCsvBytes (bs : List Nat) : Option DataFrame :=
  parseCsv (readCsvText bs)

/-- A Streamlit message emitted by the pipeline. -/
inductive PyMsg
  | errorReadCsv (filename : PyStr)   -- st.error in read_csv_file's handler
  | errorZip                          -- st.error in process_zip_file's handler
  | warningEntry (filename : PyStr)   -- st.warning in the per-entry handler
deriving DecidableEq, Repr

/-- Process state: whether the `data` directory exists, its files
(name to byte-content, in creation order), and the message log. -/
structure Sys where
  dirExists : Bool
  files : List (PyStr × List Nat)
  msgs : List PyMsg
deriving DecidableEq, Repr

def Sys.init : Sys := { dirExists := false, files := [], msgs := [] }

/-- `open(path, 'wb').write(content)`: create or overwrite. -/
def fsWrite : List (PyStr × List Nat) → PyStr → List Nat → List (PyStr × List Nat)
  | [], name, content => [(name, content)]
  | (n, c) :: fs, name, content =>
    if n = name then (name, content) :: fs else (n, c) :: fsWrite fs name content

/-- `os.remove` (by name inside the data directory). -/
def fsRemove (fs : List (PyStr × List Nat)) (name : PyStr) : List (PyStr × List Nat) :=
  fs.filter (fun p => p.1 ≠ name)

def fsLookup : List (PyStr × List Nat) → PyStr → Option (List Nat)
  | [], _ => none
  | (n, c) :: fs, name => if n = name then some c else fsLookup fs name

def dataDir : PyStr := "data".toList

/-- `os.path.join(DATA_DIR, filename)`. -/
def joinPath (dir name : PyStr) : PyStr := dir ++ '/' :: name

/-- `DataFileProcessor.read_csv_file`: ensure the directory, persist the
bytes under the caller's filename, then decode-and-parse; on the
exception path (`writeFails` injects an I/O failure of the persisting
write; a `none` parse is the parser raising a non-decode error) the
handler reports `st.error`, removes the file written by this call if
present, and returns `(None, None)`. -/
def read_csv_file (sys : Sys) (file_content : List Nat) (filename : PyStr)
    (writeFails : Bool) : (Option DataFrame × Option PyStr) × Sys :=
  let sys1 : Sys := { sys with dirExists := true }   -- os.makedirs(…, exist_ok=True)
  let file_path := joinPath dataDir filename
  if writeFails then
    -- open('wb') truncated/created the file, the write raised: the
    -- partial file is present and the handler removes it.
    let sys2 : Sys := { sys1 with files := fsWrite sys1.files filename [] }
    ((none, none),
     { sys2 with files := fsRemove sys2.files filename
                 msgs := sys2.msgs ++ [PyMsg.errorReadCsv filename] })
  else
    let sys2 : Sys := { sys1 with files := fsWrite sys1.files filename file_content }
    match parseCsvBytes file_content with
    | some df => ((some (normalize_column_names df), some file_path), sys2)
    | none =>
      ((none, none),
       { sys2 with files := fsRemove sys2.files filename
                   msgs := sys2.msgs ++ [PyMsg.errorReadCsv filename] })

/-- One member of a ZIP archive as `zipfile` presents it; `content =
none` models `zip_ref.read` raising (corrupt member). -/
structure ZipEntry where
  filename : PyStr
  isDir : Bool
  content : Option (List Nat)
deriving DecidableEq, Repr

/-- `filename.lower().split('.')[-1]`. -/
def extOf (name : PyStr) : PyStr :=
  (splitSep '.' (name.map pyLower)).getLastD []

/-- Python dict assignment `d[k] = v` on an insertion-ordered dict. -/
def dictInsert {α : Type} : List (PyStr × α) → PyStr → α → List (PyStr × α)
  | [], k, v => [(k, v)]
  | (k', v') :: d, k, v =>
    if k' = k then (k, v) :: d else (k', v') :: dictInsert d k v

/-- The body of the inner `try` for one CSV entry: read the member's
bytes (a raising `zip_ref.read` is the `none` content, caught by the
inner handler which records `st.warning`), run them through
`read_csv_file`, and add to `datasets` only when both results are
non-None. -/
def processZipEntryCsv (s : Sys) (d : List (PyStr × (DataFrame × PyStr))) (e : ZipEntry) :
    List (PyStr × (DataFrame × PyStr)) × Sys :=
  match e.content with
  | none => (d, { s with msgs := s.msgs ++ [PyMsg.warningEntry e.filename] })
  | some bs =>
    match read_csv_file s bs e.filename false with
    | ((some df, some p), s') => (dictInsert d e.filename (df, p), s')
    | ((_, _), s') => (d, s')

/-- The entry loop of `process_zip_file` over the archive's
`infolist`: skip directories and entries whose lowercased extension is
not `csv`; route the rest through the per-entry step. -/
def processZipGo : List ZipEntry → Sys → List (PyStr × (DataFrame × PyStr)) →
    List (PyStr × (DataFrame × PyStr)) × Sys
  | [], s, d => (d, s)
  | e :: rest, s, d =>
    if e.isDir then processZipGo rest s d
    else if extOf e.filename = "csv".toList then
      processZipGo rest (processZipEntryCsv s d e).2 (processZipEntryCsv s d e).1
    else processZipGo rest s d

/-- `DataFileProcessor.process_zip_file`.  The `zipfile.ZipFile`
constructor is external: its outcome is the input — `none` models raw
bytes that are not a valid ZIP archive, in which case the outer handler
records `st.error` and the accumulated (empty) dict is returned; the
call never raises. -/
def process_zip_file (sys : Sys) (archive : Option (List ZipEntry)) :
    List (PyStr × (DataFrame × PyStr)) × Sys :=
  match archive with
  | none => ([], { sys with msgs := sys.msgs ++ [PyMsg.errorZip] })
  | some entries => processZipGo entries sys []

/-- One record of the `files` list in `get_data_directory_info`. -/
structure FileInfo where
  name : PyStr
  size_mb : ℚ
  path : PyStr
deriving DecidableEq, Repr

/-- The dict returned by `get_data_directory_info` (`exists` is
`dirExists` here; float arithmetic on `size / (1024 * 1024)` is exact
for these magnitudes and is modelled in `ℚ`; `os.path.abspath` is
environment-dependent and modelled as the relative path). -/
structure DirInfo where
  dirExists : Bool
  path : PyStr
  files : List FileInfo
  total_size_mb : ℚ
deriving DecidableEq, Repr

/-- `DataFileProcessor.get_data_directory_info`. -/
def get_data_directory_info (sys : Sys) : DirInfo :=
  if sys.dirExists then
    let infos := sys.files.map (fun p =>
      { name := p.1
        size_mb := (p.2.length : ℚ) / (1024 * 1024)
        path := joinPath dataDir p.1 : FileInfo })
    { dirExists := true
      path := dataDir
      files := infos
      total_size_mb := infos.foldl (fun acc f => acc + f.size_mb) 0 }
  else
    { dirExists := false, path := dataDir, files := [], total_size_mb := 0 }

/-! ## Spec-side predicates and concrete inputs -/

/-- The character class of the spec's regex `^[a-z0-9_]+$`. -/
def isLowerSlug (c : Char) : Bool :=
  (97 ≤ c.toNat ∧ c.toNat ≤ 122) ∨ (48 ≤ c.toNat ∧ c.toNat ≤ 57) ∨ c.toNat = 95

/-- The spec's regex `^[a-z0-9_]+$` (non-empty, charset only). -/
def matchesLowerSlug (s : PyStr) : Bool :=
  !s.isEmpty && s.all isLowerSlug

/-- A character whose modelled NFD decomposition consists of ASCII
characters and combining marks, so that accent stripping leaves only
ASCII — the repertoire on which the charset guarantee does hold. -/
def decompAscii (c : Char) : Bool :=
  (pyNFD c).all (fun d => isMn d || d.toNat < 128)

/-- `s.any (not ascii)`: the claim's "at least one non-ASCII character". -/
def hasNonAscii (s : PyStr) : Bool :=
  s.any (fun c => 128 ≤ c.toNat)

/-- Characters on which cp1252 and latin-1 agree byte-for-byte (the
text avoids the cp1252-specific 0x80-0x9F block). -/
def latin1Agreeing (c : Char) : Bool :=
  c.toNat < 0x80 ∨ (0xA0 ≤ c.toNat ∧ c.toNat < 0x100)

/-- What C10 says the encoding loop reduces to: the UTF-8 attempt,
else the (total) latin-1 attempt. -/
def utf8ThenLatin1 (bs : List Nat) : PyStr :=
  match decodeUtf8 bs with
  | some t => t
  | none => decodeLatin1 bs

/-- An archive entry that `process_zip_file` stores: a non-directory
whose lowercased extension is `csv`, whose bytes are readable, and on
which the parse inside `read_csv_file` succeeds. -/
def entrySucceeds (e : ZipEntry) : Bool :=
  !e.isDir && extOf e.filename = "csv".toList &&
    (match e.content with
     | none => false
     | some bs => (parseCsvBytes bs).isSome)

/-- No two consecutive underscores (the shape `re.sub(r'_+', '_', ·)`
leaves behind). -/
def noDD (s : List Char) : Prop :=
  List.Chain' (fun a b => ¬(a = '_' ∧ b = '_')) s

/-- The shape of every name `normalize_column_names` emits (on the
ASCII-decomposable repertoire): non-empty, in `[a-z0-9_]`, no leading,
trailing or doubled underscore.  `normalize_string` is the identity on
such strings. -/
def goodSlug (s : PyStr) : Prop :=
  s ≠ [] ∧ (∀ c ∈ s, isLowerSlug c = true) ∧
    s.head? ≠ some '_' ∧ s.getLast? ≠ some '_' ∧ noDD s

/-- Columns `a`, `a`, `a_1`: the second column's collision suffix
collides with the third column's bare normalized form. -/
def dfDup : DataFrame :=
  { columns := ["a".toList, "a".toList, "a_1".toList], rows := [] }

/-- The spec's collision example: `Preço` and `preco ` both normalize
to `preco`. -/
def dfPreco : DataFrame :=
  { columns := ["Preço".toList, "preco ".toList], rows := [] }

/-- A single column named `ß` (a non-ASCII word character that
survives normalization). -/
def dfEszett : DataFrame :=
  { columns := [['ß']], rows := [] }

/-- `b"a,b\n1,2\n"`. -/
def bytesAB : List Nat := [97, 44, 98, 10, 49, 44, 50, 10]

/-- The text `a\n€`: header `a`, one row whose single cell is `€`. -/
def textEuro : PyStr := ['a', '\n', '€']

/-- The messages one archive entry contributes to the log: nothing for
directories, non-`csv` extensions and successful entries; the inner
handler's `st.warning` when `zip_ref.read` raises; and — because
`read_csv_file` catches its own failures — `read_csv_file`'s
`st.error` (never the per-entry warning) when the entry's bytes fail
to parse. -/
def entryMsgs (e : ZipEntry) : List PyMsg :=
  if e.isDir then []
  else if extOf e.filename = "csv".toList then
    match e.content with
    | none => [PyMsg.warningEntry e.filename]
    | some bs =>
      if (parseCsvBytes bs).isSome then [] else [PyMsg.errorReadCsv e.filename]
  else []

/-- Keys added to an insertion-ordered dict, given the keys already
present: the first occurrence of each new name is kept in order,
repeats (and names already present) collapse into the existing entry. -/
def addNew (seen : List PyStr) : List PyStr → List PyStr
  | [] => []
  | n :: ns => if n ∈ seen then addNew seen ns else n :: addNew (seen ++ [n]) ns

/-- Three parsable CSV entries and one non-CSV entry. -/
def zipThreeCsvOneOther : List ZipEntry :=
  [⟨"a.csv".toList, false, some [97, 10, 49]⟩,
   ⟨"b.csv".toList, false, some [97, 10, 50]⟩,
   ⟨"c.csv".toList, false, some [97, 10, 51]⟩,
   ⟨"d.txt".toList, false, some [97, 10, 52]⟩]

/-- Two parsable CSV entries and one corrupt one (empty content:
`pd.read_csv` raises `EmptyDataError`). -/
def zipTwoValidOneCorrupt : List ZipEntry :=
  [⟨"v1.csv".toList, false, some [97, 10, 49]⟩,
   ⟨"v2.csv".toList, false, some [97, 10, 50]⟩,
   ⟨"bad.csv".toList, false, some []⟩]

/-- One step of the `column_counts` bookkeeping for a normalized name
(exactly the state update of `normalize_column_names`'s loop). -/
def countStep (m : List (PyStr × Nat)) (n : PyStr) : List (PyStr × Nat) :=
  match lookupCount m n with
  | some k => setCount m n (k + 1)
  | none => m ++ [(n, 0)]

/-- The `column_counts` state after processing a list of normalized
names. -/
def mkCounts (ns : List PyStr) : List (PyStr × Nat) :=
  ns.foldl countStep []

/-- The name emitted for the occurrence of normalized form `n` with
`k` earlier occurrences: bare for the first, `n_k` afterwards. -/
def suffixName (n : PyStr) (k : Nat) : PyStr :=
  if k = 0 then n else n ++ '_' :: natToString k

/-! ## Helper lemmas -/

theorem fsLookup_fsRemove (fs : List (PyStr × List Nat)) (name : PyStr) :
    fsLookup (fsRemove fs name) name = none := by
  induction fs with
  | nil => rfl
  | cons p fs ih =>
    obtain ⟨n, c⟩ := p
    by_cases h : n = name
    · simpa [fsRemove, List.filter_cons, h] using ih
    · simpa [fsRemove, List.filter_cons, h, fsLookup] using ih

/-! ## Claims -/

/-- Claim C1 (code bug): the claim says all column names returned by
`normalize_column_names` are pairwise distinct even when a collision
suffix coincides with a later column's normalized form; on exactly that
input — columns `a`, `a`, `a_1` — the code returns `a`, `a_1`, `a_1`,
a duplicate, because the suffixed name is never recorded in
`column_counts`. -/
theorem claim_C1_failing_input :
    (normalize_column_names dfDup).columns
      = ["a".toList, "a_1".toList, "a_1".toList]
    ∧ ¬ (normalize_column_names dfDup).columns.Nodup := by
  constructor
  · decide
  · decide

/-- Claim C7: for raw bytes that are not a valid ZIP archive (the
`zipfile.ZipFile` constructor raises, modelled as `archive = none`),
`process_zip_file` returns an empty mapping, records an `st.error`,
and does not raise to the caller (the model is a total function whose
error path is this very branch). -/
theorem claim_C7 (sys : Sys) :
    (process_zip_file sys none).1 = []
    ∧ (process_zip_file sys none).2.msgs = sys.msgs ++ [PyMsg.errorZip]
    ∧ (process_zip_file sys none).2.files = sys.files := by
  refine ⟨rfl, rfl, rfl⟩

/-- Claim C10: latin-1 decoding is total on bytes, so the encoding
loop of `read_csv_file` is always decided by the UTF-8 attempt or the
latin-1 attempt: the cp1252 and iso-8859-1 attempts and the lossy
UTF-8 fallback after the loop are unreachable (any remaining failure
is a non-decode parser error, raised after the loop has returned). -/
theorem claim_C10 (bs : List Nat) :
    decodeLoop encodings bs = some (utf8ThenLatin1 bs)
    ∧ readCsvText bs = utf8ThenLatin1 bs := by
  cases h : decodeUtf8 bs <;>
    simp [decodeLoop, encodings, pyDecode, readCsvText, utf8ThenLatin1, h]

/-- Claim C6: whenever `read_csv_file` fails unrecoverably — the
persisting write fails (`writeFails`), or the parser raises an error
that is not a decode error (`parseCsvBytes _ = none`) — it removes the
file it wrote, reports the failure, and returns `(None, None)`. -/
theorem claim_C6 (sys : Sys) (bs : List Nat) (filename : PyStr) (writeFails : Bool)
    (h : writeFails = true ∨ parseCsvBytes bs = none) :
    (read_csv_file sys bs filename writeFails).1 = (none, none)
    ∧ fsLookup (read_csv_file sys bs filename writeFails).2.files filename = none
    ∧ (read_csv_file sys bs filename writeFails).2.msgs
        = sys.msgs ++ [PyMsg.errorReadCsv filename] := by
  rcases h with h | h
  · subst h
    exact ⟨rfl, fsLookup_fsRemove _ _, rfl⟩
  · cases writeFails
    · simp only [read_csv_file, h]
      exact ⟨rfl, fsLookup_fsRemove _ _, rfl⟩
    · exact ⟨rfl, fsLookup_fsRemove _ _, rfl⟩

/-- Witness for C6 at concrete input: empty bytes (pandas raises
`EmptyDataError`) with a successful write. -/
theorem claim_C6_witness :
    (false = true ∨ parseCsvBytes [] = none)
    ∧ (read_csv_file Sys.init [] ("x.csv".toList) false).1 = (none, none)
    ∧ fsLookup (read_csv_file Sys.init [] ("x.csv".toList) false).2.files ("x.csv".toList) = none
    ∧ (read_csv_file Sys.init [] ("x.csv".toList) false).2.msgs
        = Sys.init.msgs ++ [PyMsg.errorReadCsv ("x.csv".toList)] := by
  have h : false = true ∨ parseCsvBytes [] = none := Or.inr (by decide)
  exact ⟨h, claim_C6 Sys.init [] ("x.csv".toList) false h⟩

/-- Claim C2, counterexample: the column name `ß` is returned
unchanged by `normalize_column_names` (it is a Unicode word character
with no decomposition, fixed by lower-casing), and it does not match
`^[a-z0-9_]+$`. -/
theorem claim_C2_counterexample :
    (normalize_column_names dfEszett).columns = [['ß']]
    ∧ matchesLowerSlug ['ß'] = false := by
  constructor
  · decide
  · decide

/-- Claim C4: after `read_csv_file(b"a,b\n1,2\n", "x.csv")` from a
fresh state, the directory info reports the directory as existing with
exactly one file `x.csv` whose reported size corresponds to 8 bytes
(`8 / 2^20` MB, the exact value the float computes), the total
aggregates to the same, and the returned table has columns `a`, `b`
and the single row `1`, `2`. -/
theorem claim_C4 :
    (read_csv_file Sys.init bytesAB ("x.csv".toList) false).1.1
      = some { columns := ["a".toList, "b".toList]
               rows := [[some ['1'], some ['2']]] }
    ∧ (get_data_directory_info (read_csv_file Sys.init bytesAB ("x.csv".toList) false).2).dirExists = true
    ∧ (get_data_directory_info (read_csv_file Sys.init bytesAB ("x.csv".toList) false).2).files
        = [{ name := "x.csv".toList, size_mb := (8 : ℚ) / 1048576, path := "data/x.csv".toList }]
    ∧ (get_data_directory_info (read_csv_file Sys.init bytesAB ("x.csv".toList) false).2).total_size_mb
        = (8 : ℚ) / 1048576
    ∧ bytesAB.length = 8 := by
  have hsys : (read_csv_file Sys.init bytesAB ("x.csv".toList) false).2
      = { dirExists := true, files := [("x.csv".toList, bytesAB)], msgs := [] } := by
    decide
  refine ⟨by decide, ?_, ?_, ?_, by decide⟩
  · rw [hsys]; rfl
  · rw [hsys]
    simp [get_data_directory_info, joinPath, dataDir, bytesAB]
    norm_num
  · rw [hsys]
    simp [get_data_directory_info]
    norm_num [bytesAB]

/-- Claim C3, counterexample: the text `a\n€` (one non-ASCII
character) encoded in Windows-1252 is `61 0A 80`; the UTF-8 attempt
fails, the latin-1 attempt succeeds and decodes `80` to U+0080, so
`read_csv_file` returns a table whose cell is U+0080, not `€` — the
first candidate that decodes does not round-trip. -/
theorem claim_C3_counterexample :
    cp1252Encode textEuro = some [0x61, 0x0A, 0x80]
    ∧ hasNonAscii textEuro = true
    ∧ parseCsv textEuro = some { columns := [['a']], rows := [[some ['€']]] }
    ∧ (read_csv_file Sys.init [0x61, 0x0A, 0x80] ("x.csv".toList) false).1.1
        = some { columns := [['a']], rows := [[some ['\x80']]] }
    ∧ (['\x80'] : PyStr) ≠ ['€'] := by
  refine ⟨by decide, by decide, by decide, by decide, by decide⟩

/-- Claim C5, counterexample: an archive with one corrupt CSV entry
among two valid ones yields two results (one per valid entry), not the
single result the claim states; and the failing entry is recorded with
`read_csv_file`'s `st.error`, not the `st.warning` the claim asserts —
the per-entry warning handler never fires for a parse failure because
`read_csv_file` catches it first. -/
theorem claim_C5_counterexample :
    (process_zip_file Sys.init (some zipTwoValidOneCorrupt)).1.length = 2
    ∧ (process_zip_file Sys.init (some zipTwoValidOneCorrupt)).1.length ≠ 1
    ∧ (process_zip_file Sys.init (some zipTwoValidOneCorrupt)).2.msgs
        = [PyMsg.errorReadCsv ("bad.csv".toList)]
    ∧ PyMsg.warningEntry ("bad.csv".toList)
        ∉ (process_zip_file Sys.init (some zipTwoValidOneCorrupt)).2.msgs := by
  refine ⟨by decide, by decide, by decide, by decide⟩

/-- Claim C8, counterexample: on columns `a`, `a`, `a_1` the first
normalization returns `a`, `a_1`, `a_1`, and normalizing that result
again returns `a`, `a_1`, `a_1_1` — `normalize_column_names` is not
idempotent. -/
theorem claim_C8_counterexample :
    (normalize_column_names (normalize_column_names dfDup)).columns
        = ["a".toList, "a_1".toList, "a_1_1".toList]
    ∧ normalize_column_names (normalize_column_names dfDup)
        ≠ normalize_column_names dfDup := by
  constructor
  · decide
  · decide

theorem lookup_setCount (m : List (PyStr × Nat)) (k : PyStr) (v : Nat) (n : PyStr) :
    lookupCount (setCount m k v) n
      = if n = k then (lookupCount m k).map (fun _ => v) else lookupCount m n := by
  induction m with
  | nil =>
    simp only [setCount, lookupCount]
    split <;> rfl
  | cons p m ih =>
    obtain ⟨k', v'⟩ := p
    by_cases h1 : k' = k
    · subst h1
      by_cases h2 : n = k'
      · subst h2
        simp [setCount, lookupCount]
      · have h2' : ¬ k' = n := fun h => h2 (Eq.symm h)
        simp [setCount, lookupCount, h2, h2']
    · by_cases h2 : k' = n
      · subst h2
        simp [setCount, lookupCount, h1]
      · simp [setCount, lookupCount, h1, h2, ih]

theorem lookup_appendSingle (m : List (PyStr × Nat)) (a n : PyStr) :
    lookupCount (m ++ [(a, 0)]) n
      = match lookupCount m n with
        | some v => some v
        | none => if n = a then some 0 else none := by
  induction m with
  | nil =>
    simp only [List.nil_append, lookupCount]
    by_cases h : a = n
    · subst h; simp
    · have h' : ¬ n = a := fun h2 => h (Eq.symm h2)
      simp [h, h']
  | cons p m ih =>
    obtain ⟨k', v'⟩ := p
    by_cases h : k' = n
    · subst h; simp [lookupCount]
    · simp [lookupCount, h, ih]

theorem lookup_countStep (m : List (PyStr × Nat)) (a n : PyStr) :
    lookupCount (countStep m a) n
      = if n = a then
          (match lookupCount m a with | some k => some (k + 1) | none => some 0)
        else lookupCount m n := by
  unfold countStep
  cases h : lookupCount m a with
  | none =>
    rw [lookup_appendSingle]
    by_cases h2 : n = a
    · subst h2; simp [h]
    · simp [h2]
      cases lookupCount m n <;> simp
  | some k =>
    rw [lookup_setCount]
    by_cases h2 : n = a
    · subst h2; simp [h]
    · simp [h2]

theorem mkCounts_append (ns : List PyStr) (n : PyStr) :
    mkCounts (ns ++ [n]) = countStep (mkCounts ns) n := by
  simp [mkCounts, List.foldl_append]

theorem lookup_mkCounts (ns : List PyStr) (n : PyStr) :
    lookupCount (mkCounts ns) n
      = if ns.count n = 0 then none else some (ns.count n - 1) := by
  induction ns using List.reverseRecOn with
  | nil => simp [mkCounts, lookupCount]
  | append_singleton ns a ih =>
    rw [mkCounts_append, lookup_countStep, ih]
    by_cases h : n = a
    · subst h
      have hc : (ns ++ [n]).count n = ns.count n + 1 := by
        simp [List.count_append]
      rw [hc]
      by_cases h0 : ns.count n = 0
      · simp [ih, h0]
      · have h1 : ¬ ns.count n + 1 = 0 := by omega
        have h2 : ns.count n - 1 + 1 = ns.count n := by omega
        simp [ih, h0, h1, h2]
    · have hc : (ns ++ [a]).count n = ns.count n := by
        simp [List.count_append, List.count_singleton', beq_iff_eq, h]
      rw [hc]
      simp [h]

theorem normalizeColumnsGo_length (cols : List PyStr) :
    ∀ m, (normalizeColumnsGo m cols).length = cols.length := by
  induction cols with
  | nil => intro m; rfl
  | cons col rest ih =>
    intro m
    unfold normalizeColumnsGo
    cases h : lookupCount m (normalize_string col) <;> simp [h, ih]

theorem normalizeColumnsGo_getElem (cols : List PyStr) :
    ∀ (pre : List PyStr) (i : Nat),
      (normalizeColumnsGo (mkCounts pre) cols)[i]? =
        ((cols.map normalize_string)[i]?).map
          (fun n => suffixName n ((pre ++ (cols.map normalize_string).take i).count n)) := by
  induction cols with
  | nil => intro pre i; simp [normalizeColumnsGo]
  | cons col rest ih =>
    intro pre i
    cases i with
    | zero =>
      simp only [normalizeColumnsGo, List.map_cons, List.take_zero, List.append_nil]
      rw [lookup_mkCounts]
      by_cases h : pre.count (normalize_string col) = 0
      · simp [h, suffixName]
      · have hk : pre.count (normalize_string col) - 1 + 1
            = pre.count (normalize_string col) := by omega
        simp [h, suffixName, hk]
    | succ i =>
      have hstep : normalizeColumnsGo (mkCounts pre) (col :: rest)
          = (match lookupCount (mkCounts pre) (normalize_string col) with
             | some k => normalize_string col ++ '_' :: natToString (k + 1)
             | none => normalize_string col) ::
            normalizeColumnsGo (mkCounts (pre ++ [normalize_string col])) rest := by
        rw [mkCounts_append]
        cases h : lookupCount (mkCounts pre) (normalize_string col) with
        | none => simp only [normalizeColumnsGo, countStep, h]
        | some k => simp only [normalizeColumnsGo, countStep, h]
      rw [hstep]
      simp only [List.getElem?_cons_succ, List.map_cons, List.take_succ_cons]
      rw [ih (pre ++ [normalize_string col]) i]
      simp [List.append_assoc]

/-- Claim C9: `normalize_column_names` resolves collisions
deterministically in column-appearance order and preserves column
order and count: position `i` receives the bare normalized form on its
first occurrence and the `_k` suffix when `k` earlier columns share
that normalized form (suffixes start at `_1`); in particular `Preço`
and `preco ` yield `preco`, `preco_1` in original order. -/
theorem claim_C9 (df : DataFrame) :
    (normalize_column_names df).columns.length = df.columns.length
    ∧ ∀ i n, (df.columns.map normalize_string)[i]? = some n →
        (normalize_column_names df).columns[i]? =
          some (suffixName n (((df.columns.map normalize_string).take i).count n)) := by
  constructor
  · simpa [normalize_column_names] using normalizeColumnsGo_length df.columns []
  · intro i n h
    have h0 : mkCounts [] = [] := rfl
    have hmain := normalizeColumnsGo_getElem df.columns [] i
    rw [h0] at hmain
    simp only [normalize_column_names]
    rw [hmain, h]
    simp

/-- Witness for C9 at the spec's example: the second column of
`Preço`, `preco ` gets the name `preco_1`. -/
theorem claim_C9_witness :
    (dfPreco.columns.map normalize_string)[1]? = some ("preco".toList)
    ∧ (normalize_column_names dfPreco).columns[1]? = some ("preco_1".toList)
    ∧ (normalize_column_names dfPreco).columns[0]? = some ("preco".toList) := by
  have h1 : (dfPreco.columns.map normalize_string)[1]? = some ("preco".toList) := by decide
  have h0 : (dfPreco.columns.map normalize_string)[0]? = some ("preco".toList) := by decide
  have e1 := (claim_C9 dfPreco).2 1 ("preco".toList) h1
  have e0 := (claim_C9 dfPreco).2 0 ("preco".toList) h0
  refine ⟨h1, ?_, ?_⟩
  · rw [e1]; decide
  · rw [e0]; decide

theorem toNat_ofNat_of_lt {n : Nat} (h : n < 0xD800) : (Char.ofNat n).toNat = n := by
  have hv : n.isValidChar := Or.inl h
  rw [Char.ofNat, dif_pos hv]
  rfl

theorem isLowerSlug_toNat {c : Char} (h : isLowerSlug c = true) :
    (97 ≤ c.toNat ∧ c.toNat ≤ 122) ∨ (48 ≤ c.toNat ∧ c.toNat ≤ 57) ∨ c.toNat = 95 := by
  simpa [isLowerSlug, decide_eq_true_eq] using h

theorem isLowerSlug_not_space {c : Char} (h : isLowerSlug c = true) :
    isPySpace c = false := by
  have := isLowerSlug_toNat h
  simp only [isPySpace, decide_eq_false_iff_not]
  omega

theorem isLowerSlug_word {c : Char} (h : isLowerSlug c = true) :
    isPyWord c = true := by
  have := isLowerSlug_toNat h
  simp only [isPyWord, isAsciiWord, Bool.or_eq_true, decide_eq_true_eq]
  omega

theorem isLowerSlug_not_mn {c : Char} (h : isLowerSlug c = true) :
    isMn c = false := by
  have := isLowerSlug_toNat h
  simp only [isMn, decide_eq_false_iff_not]
  omega

theorem isLowerSlug_nfd {c : Char} (h : isLowerSlug c = true) :
    pyNFD c = [c] := by
  have := isLowerSlug_toNat h
  have hlt : c.toNat < 0x80 := by omega
  simp [pyNFD, hlt]

theorem isLowerSlug_lower {c : Char} (h : isLowerSlug c = true) :
    pyLower c = c := by
  have := isLowerSlug_toNat h
  have h1 : ¬ (65 ≤ c.toNat ∧ c.toNat ≤ 90) := by omega
  have h2 : c.toNat < 0x80 := by omega
  simp [pyLower, h1, h2]

theorem isLowerSlug_ne_underscore_of_digit {c : Char}
    (h : 48 ≤ c.toNat ∧ c.toNat ≤ 57) : ¬ c = '_' := by
  intro hc
  subst hc
  have h95 : ('_').toNat = 95 := rfl
  omega

/-- On ASCII, the modelled `\w` coincides with `[A-Za-z0-9_]`. -/
theorem isPyWord_ascii {c : Char} (hlt : c.toNat < 128) (h : isPyWord c = true) :
    isAsciiWord c = true := by
  simp only [isPyWord, Bool.or_eq_true, decide_eq_true_eq] at h
  simp only [isAsciiWord, Bool.or_eq_true, decide_eq_true_eq] at h ⊢
  omega

theorem pyLower_asciiWord {c : Char} (h : isAsciiWord c = true) :
    isLowerSlug (pyLower c) = true := by
  simp only [isAsciiWord, Bool.or_eq_true, decide_eq_true_eq] at h
  by_cases hAZ : 65 ≤ c.toNat ∧ c.toNat ≤ 90
  · have ht : (Char.ofNat (c.toNat + 32)).toNat = c.toNat + 32 :=
      toNat_ofNat_of_lt (by omega)
    rw [pyLower, if_pos hAZ]
    simp only [isLowerSlug, Bool.or_eq_true, decide_eq_true_eq, ht]
    omega
  · have hlt : c.toNat < 0x80 := by omega
    rw [pyLower, if_neg hAZ, if_pos hlt]
    simp only [isLowerSlug, Bool.or_eq_true, decide_eq_true_eq]
    omega

theorem pyLower_underscore {c : Char} (h : pyLower c = '_') : c = '_' := by
  by_cases h1 : 65 ≤ c.toNat ∧ c.toNat ≤ 90
  · exfalso
    have ht : (Char.ofNat (c.toNat + 32)).toNat = c.toNat + 32 :=
      toNat_ofNat_of_lt (by omega)
    rw [pyLower, if_pos h1] at h
    have h95 : (Char.ofNat (c.toNat + 32)).toNat = 95 := by rw [h]; rfl
    omega
  · by_cases h2 : c.toNat < 0x80
    · rwa [pyLower, if_neg h1, if_pos h2] at h
    · exfalso
      rw [pyLower, if_neg h1, if_neg h2] at h
      cases hf : pyLowerTable.find? (fun p => p.1 = c.toNat) with
      | none =>
        rw [hf] at h
        change c = '_' at h
        subst h
        exact h2 (by decide)
      | some p =>
        rw [hf] at h
        have hmem : p ∈ pyLowerTable := List.mem_of_find?_eq_some hf
        have : ∀ q ∈ pyLowerTable, q.2 ≠ '_' := by decide
        exact this p hmem h

theorem subRunsGo_mem {p : Char → Bool} {r c : Char} :
    ∀ {b : Bool} {s : List Char}, c ∈ subRunsGo p r b s → c = r ∨ c ∈ s := by
  intro b s
  induction s generalizing b with
  | nil => intro h; exact absurd h (by simp [subRunsGo])
  | cons a rest ih =>
    intro h
    by_cases hp : p a
    · cases b with
      | true =>
        simp only [subRunsGo, hp, if_true] at h
        rcases ih h with h | h
        · exact Or.inl h
        · exact Or.inr (List.mem_cons_of_mem a h)
      | false =>
        simp only [subRunsGo, hp, if_true] at h
        rcases List.mem_cons.1 h with h | h
        · exact Or.inl h
        · rcases ih h with h | h
          · exact Or.inl h
          · exact Or.inr (List.mem_cons_of_mem a h)
    · simp only [subRunsGo, hp, if_false] at h
      rcases List.mem_cons.1 h with h | h
      · exact Or.inr (h ▸ List.mem_cons_self a rest)
      · rcases ih h with h | h
        · exact Or.inl h
        · exact Or.inr (List.mem_cons_of_mem a h)

theorem subRunsGo_id {p : Char → Bool} {r : Char} {s : List Char}
    (h : ∀ c ∈ s, p c = false) : ∀ b, subRunsGo p r b s = s := by
  induction s with
  | nil => intro b; rfl
  | cons a rest ih =>
    intro b
    have ha : p a = false := h a (List.mem_cons_self a rest)
    simp only [subRunsGo, ha, Bool.false_eq_true, if_false]
    rw [ih (fun c hc => h c (List.mem_cons_of_mem a hc)) false]

theorem subRunsGo_true_head {s : List Char} :
    (subRunsGo (fun c => c = '_') '_' true s).head? ≠ some '_' := by
  induction s with
  | nil => simp [subRunsGo]
  | cons a rest ih =>
    by_cases hp : a = '_'
    · simpa [subRunsGo, hp] using ih
    · simp [subRunsGo, hp]

theorem noDD_subRunsGo (s : List Char) :
    ∀ b, noDD (subRunsGo (fun c => c = '_') '_' b s) := by
  induction s with
  | nil => intro b; simp [subRunsGo, noDD]
  | cons a rest ih =>
    intro b
    by_cases hp : a = '_'
    · have hpa : (fun c => decide (c = '_')) a = true := by simp [hp]
      cases b with
      | true =>
        have hstep : subRunsGo (fun c => c = '_') '_' true (a :: rest)
            = subRunsGo (fun c => c = '_') '_' true rest := by
          simp only [subRunsGo, hpa, if_true]
        rw [hstep]
        exact ih true
      | false =>
        have hstep : subRunsGo (fun c => c = '_') '_' false (a :: rest)
            = '_' :: subRunsGo (fun c => c = '_') '_' true rest := by
          simp only [subRunsGo, hpa, if_true, Bool.false_eq_true, if_false]
        rw [hstep, noDD, List.chain'_cons']
        refine ⟨?_, ih true⟩
        intro y hy hcon
        apply @subRunsGo_true_head rest
        rw [Option.mem_def] at hy
        rw [hcon.2] at hy
        exact hy
    · have hpa : (fun c => decide (c = '_')) a = false := by simp [hp]
      have hstep : subRunsGo (fun c => c = '_') '_' b (a :: rest)
          = a :: subRunsGo (fun c => c = '_') '_' false rest := by
        simp only [subRunsGo, hpa, Bool.false_eq_true, if_false]
      rw [hstep, noDD, List.chain'_cons']
      exact ⟨fun y hy hcon => hp hcon.1, ih false⟩

theorem dropTrailing_decomp (p : Char → Bool) (s : List Char) :
    ∃ t, s = dropTrailing p s ++ t := by
  induction s with
  | nil => exact ⟨[], rfl⟩
  | cons c rest ih =>
    obtain ⟨t, ht⟩ := ih
    cases hd : dropTrailing p rest with
    | nil =>
      by_cases hp : p c
      · refine ⟨c :: rest, ?_⟩
        have hdt : dropTrailing p (c :: rest) = [] := by
          rw [dropTrailing, hd]; simp [hp]
        rw [hdt, List.nil_append]
      · refine ⟨t, ?_⟩
        have hdt : dropTrailing p (c :: rest) = [c] := by
          rw [dropTrailing, hd]; simp [hp]
        rw [hdt]
        rw [hd] at ht
        simpa using ht
    | cons d r =>
      refine ⟨t, ?_⟩
      have hdt : dropTrailing p (c :: rest) = c :: d :: r := by
        rw [dropTrailing, hd]
      rw [hdt]
      rw [hd] at ht
      simpa using ht

theorem dropTrailing_mem {p : Char → Bool} {s : List Char} {c : Char}
    (h : c ∈ dropTrailing p s) : c ∈ s := by
  obtain ⟨t, ht⟩ := dropTrailing_decomp p s
  rw [ht]
  exact List.mem_append_left t h

theorem dropTrailing_getLast? {p : Char → Bool} :
    ∀ {s : List Char} {c : Char}, (dropTrailing p s).getLast? = some c → p c = false := by
  intro s
  induction s with
  | nil => intro c h; simp [dropTrailing] at h
  | cons a rest ih =>
    intro c h
    cases hd : dropTrailing p rest with
    | nil =>
      rw [dropTrailing, hd] at h
      by_cases hp : p a
      · simp [hp] at h
      · simp [hp] at h
        rw [← h]
        simpa using hp
    | cons d r =>
      rw [dropTrailing, hd, List.getLast?_cons_cons] at h
      exact ih (hd ▸ h)

theorem dropTrailing_id {p : Char → Bool} :
    ∀ {s : List Char}, (∀ c, s.getLast? = some c → p c = false) → dropTrailing p s = s := by
  intro s
  induction s with
  | nil => intro _; rfl
  | cons a rest ih =>
    intro h
    cases rest with
    | nil =>
      have ha : p a = false := h a rfl
      simp [dropTrailing, ha]
    | cons b rest' =>
      have hr : dropTrailing p (b :: rest') = b :: rest' := by
        apply ih
        intro c hc
        exact h c (by rwa [List.getLast?_cons_cons])
      rw [dropTrailing, hr]

theorem dropWhile_head? {p : Char → Bool} :
    ∀ {s : List Char} {c : Char}, (s.dropWhile p).head? = some c → p c = false := by
  intro s
  induction s with
  | nil => intro c h; simp at h
  | cons a rest ih =>
    intro c h
    by_cases hp : p a
    · rw [List.dropWhile_cons, if_pos hp] at h
      exact ih h
    · rw [List.dropWhile_cons, if_neg hp] at h
      simp at h
      rw [← h]
      simpa using hp

theorem dropWhile_id {p : Char → Bool} {s : List Char}
    (h : ∀ c, s.head? = some c → p c = false) : s.dropWhile p = s := by
  cases s with
  | nil => rfl
  | cons a rest =>
    have ha : p a = false := h a rfl
    simp [List.dropWhile_cons, ha]

theorem noDD_dropWhile {p : Char → Bool} {s : List Char} (h : noDD s) :
    noDD (s.dropWhile p) := h.suffix (List.dropWhile_suffix p)

theorem noDD_dropTrailing {p : Char → Bool} {s : List Char} (h : noDD s) :
    noDD (dropTrailing p s) := by
  obtain ⟨t, ht⟩ := dropTrailing_decomp p s
  exact h.prefix ⟨t, ht.symm⟩

theorem noDD_map_pyLower {s : List Char} (h : noDD s) : noDD (s.map pyLower) := by
  rw [noDD, List.chain'_map]
  exact h.imp (fun a b hab hcon => hab ⟨pyLower_underscore hcon.1, pyLower_underscore hcon.2⟩)

theorem digitChar_digit (m : Nat) :
    48 ≤ (digitChar m).toNat ∧ (digitChar m).toNat ≤ 57 := by
  unfold digitChar
  split <;> decide

theorem natToStringCore_digits :
    ∀ (fuel n : Nat) (acc : List Char),
      (∀ c ∈ acc, 48 ≤ c.toNat ∧ c.toNat ≤ 57) →
      ∀ c ∈ natToStringCore fuel n acc, 48 ≤ c.toNat ∧ c.toNat ≤ 57 := by
  intro fuel
  induction fuel with
  | zero => intro n acc hacc c hc; exact hacc c hc
  | succ fuel ih =>
    intro n acc hacc c hc
    rw [natToStringCore] at hc
    by_cases hn : n < 10
    · rw [if_pos hn] at hc
      rcases List.mem_cons.1 hc with hc | hc
      · exact hc ▸ digitChar_digit n
      · exact hacc c hc
    · rw [if_neg hn] at hc
      refine ih (n / 10) (digitChar (n % 10) :: acc) ?_ c hc
      intro d hd
      rcases List.mem_cons.1 hd with hd | hd
      · exact hd ▸ digitChar_digit (n % 10)
      · exact hacc d hd

theorem natToStringCore_ne_nil :
    ∀ (fuel n : Nat) (acc : List Char), (1 ≤ fuel ∨ acc ≠ []) →
      natToStringCore fuel n acc ≠ [] := by
  intro fuel
  induction fuel with
  | zero =>
    intro n acc h
    rcases h with h | h
    · omega
    · exact h
  | succ fuel ih =>
    intro n acc h
    rw [natToStringCore]
    by_cases hn : n < 10
    · simp [hn]
    · rw [if_neg hn]
      exact ih (n / 10) (digitChar (n % 10) :: acc) (Or.inr (by simp))

theorem natToString_digits (n : Nat) :
    ∀ c ∈ natToString n, 48 ≤ c.toNat ∧ c.toNat ≤ 57 :=
  natToStringCore_digits (n + 1) n [] (by simp)

theorem natToString_ne_nil (n : Nat) : natToString n ≠ [] :=
  natToStringCore_ne_nil (n + 1) n [] (Or.inl (by omega))

theorem dropTrailing_head? {p : Char → Bool} {l : List Char} {c : Char}
    (h : (dropTrailing p l).head? = some c) : l.head? = some c := by
  obtain ⟨t, ht⟩ := dropTrailing_decomp p l
  have hne : dropTrailing p l ≠ [] := by
    intro hnil
    rw [hnil] at h
    cases h
  rw [ht, List.head?_append_of_ne_nil _ hne]
  exact h

theorem pyStrip_mem {p : Char → Bool} {s : List Char} {c : Char}
    (h : c ∈ pyStrip p s) : c ∈ s :=
  (List.dropWhile_suffix p).subset (dropTrailing_mem h)

theorem pyStrip_head? {p : Char → Bool} {s : List Char} {c : Char}
    (h : (pyStrip p s).head? = some c) : p c = false :=
  dropWhile_head? (dropTrailing_head? h)

theorem pyStrip_getLast? {p : Char → Bool} {s : List Char} {c : Char}
    (h : (pyStrip p s).getLast? = some c) : p c = false :=
  dropTrailing_getLast? h

theorem noDD_pyStrip {p : Char → Bool} {s : List Char} (h : noDD s) :
    noDD (pyStrip p s) :=
  noDD_dropTrailing (noDD_dropWhile h)

theorem goodSlug_placeholder : goodSlug "coluna_sem_nome".toList := by
  refine ⟨by decide, by decide, by decide, by decide, ?_⟩
  simp [noDD, List.chain'_cons, List.chain'_singleton]

theorem normalize_string_good {text : PyStr} (h : ∀ c ∈ text, decompAscii c = true) :
    goodSlug (normalize_string text) := by
  simp only [normalize_string]
  set w := (text.flatMap pyNFD).filter (fun c => !(isMn c)) with hw
  set c1 := subRuns isPySpace '_' (pyStrip isPySpace w) with hc1
  set c2 := c1.map (fun c => if isPyWord c then c else '_') with hc2
  set c3 := subRuns (fun c => c = '_') '_' c2 with hc3
  set s3 := pyStrip (fun c => c = '_') c3 with hs3
  set c4 := s3.map pyLower with hc4
  have hwmem : ∀ c ∈ w, c.toNat < 128 := by
    intro c hc
    rw [hw] at hc
    obtain ⟨hcf, hnm⟩ := List.mem_filter.1 hc
    obtain ⟨a, ha, hca⟩ := List.mem_flatMap.1 hcf
    have hda := h a ha
    simp only [decompAscii, List.all_eq_true] at hda
    have hor := hda c hca
    simp only [Bool.or_eq_true, decide_eq_true_eq] at hor
    rcases hor with hmn | hlt
    · exfalso
      rw [hmn] at hnm
      cases hnm
    · exact hlt
  have hc1mem : ∀ c ∈ c1, c.toNat < 128 := by
    intro c hc
    rcases subRunsGo_mem hc with rfl | hc
    · decide
    · exact hwmem c (pyStrip_mem hc)
  have hc2mem : ∀ c ∈ c2, isAsciiWord c = true := by
    intro c hc
    rw [hc2] at hc
    obtain ⟨b, hb, rfl⟩ := List.mem_map.1 hc
    by_cases hword : isPyWord b = true
    · rw [if_pos hword]
      exact isPyWord_ascii (hc1mem b hb) hword
    · rw [if_neg hword]
      decide
  have hc3mem : ∀ c ∈ c3, isAsciiWord c = true := by
    intro c hc
    rcases subRunsGo_mem hc with rfl | hc
    · decide
    · exact hc2mem c hc
  have hc3noDD : noDD c3 := noDD_subRunsGo c2 false
  have hc4mem : ∀ c ∈ c4, isLowerSlug c = true := by
    intro c hc
    rw [hc4] at hc
    obtain ⟨b, hb, rfl⟩ := List.mem_map.1 hc
    exact pyLower_asciiWord (hc3mem b (pyStrip_mem hb))
  have hc4head : c4.head? ≠ some '_' := by
    intro hh
    rw [hc4, List.head?_map] at hh
    cases hs : s3.head? with
    | none => rw [hs] at hh; cases hh
    | some b =>
      rw [hs] at hh
      simp only [Option.map_some'] at hh
      have hb := pyLower_underscore (Option.some.inj hh)
      have hfalse := pyStrip_head? (hs3 ▸ hs)
      rw [hb] at hfalse
      simp at hfalse
  have hc4last : c4.getLast? ≠ some '_' := by
    intro hh
    rw [hc4, List.getLast?_map] at hh
    cases hs : s3.getLast? with
    | none => rw [hs] at hh; cases hh
    | some b =>
      rw [hs] at hh
      simp only [Option.map_some'] at hh
      have hb := pyLower_underscore (Option.some.inj hh)
      have hfalse := pyStrip_getLast? (hs3 ▸ hs)
      rw [hb] at hfalse
      simp at hfalse
  have hc4noDD : noDD c4 := noDD_map_pyLower (noDD_pyStrip hc3noDD)
  by_cases hemp : c4 = []
  · rw [if_pos hemp]
    exact goodSlug_placeholder
  · rw [if_neg hemp]
    exact ⟨hemp, hc4mem, hc4head, hc4last, hc4noDD⟩

theorem flatMap_pyNFD_id {s : PyStr} (h : ∀ c ∈ s, pyNFD c = [c]) :
    s.flatMap pyNFD = s := by
  induction s with
  | nil => rfl
  | cons a rest ih =>
    rw [List.flatMap_cons, h a (List.mem_cons_self a rest),
      ih (fun c hc => h c (List.mem_cons_of_mem a hc))]
    rfl

theorem subRunsGo_noDD_id {s : List Char} (h : noDD s) :
    subRunsGo (fun c => c = '_') '_' false s = s ∧
    (s.head? ≠ some '_' → subRunsGo (fun c => c = '_') '_' true s = s) := by
  induction s with
  | nil => exact ⟨rfl, fun _ => rfl⟩
  | cons a rest ih =>
    have htail : noDD rest := h.tail
    have hj := (List.chain'_cons'.1 h).1
    obtain ⟨ihf, iht⟩ := ih htail
    by_cases hp : a = '_'
    · have hpa : (fun c => decide (c = '_')) a = true := by simp [hp]
      have hstep : subRunsGo (fun c => c = '_') '_' false (a :: rest)
          = '_' :: subRunsGo (fun c => c = '_') '_' true rest := by
        simp only [subRunsGo, hpa, if_true, Bool.false_eq_true, if_false]
      have hhead : rest.head? ≠ some '_' := by
        intro hh
        exact hj '_' (by rw [Option.mem_def, hh]) ⟨hp, rfl⟩
      constructor
      · rw [hstep, iht hhead, hp]
      · intro hcon
        exfalso
        apply hcon
        rw [List.head?_cons, hp]
    · have hpa : (fun c => decide (c = '_')) a = false := by simp [hp]
      have hstep : ∀ b, subRunsGo (fun c => c = '_') '_' b (a :: rest)
          = a :: subRunsGo (fun c => c = '_') '_' false rest := by
        intro b
        simp only [subRunsGo, hpa, Bool.false_eq_true, if_false]
      exact ⟨by rw [hstep, ihf], fun _ => by rw [hstep, ihf]⟩

theorem noDD_of_no_underscore {s : List Char} (h : ∀ c ∈ s, ¬ c = '_') : noDD s := by
  induction s with
  | nil => simp [noDD]
  | cons a rest ih =>
    rw [noDD, List.chain'_cons']
    exact ⟨fun y _ con => h a (List.mem_cons_self a rest) con.1,
           ih (fun c hc => h c (List.mem_cons_of_mem a hc))⟩

theorem normalize_string_fixed {s : PyStr} (h : goodSlug s) : normalize_string s = s := by
  obtain ⟨hne, hmem, hhead, hlast, hnodd⟩ := h
  simp only [normalize_string]
  have h1 : s.flatMap pyNFD = s :=
    flatMap_pyNFD_id (fun c hc => isLowerSlug_nfd (hmem c hc))
  rw [h1]
  have h2 : s.filter (fun c => !(isMn c)) = s := by
    rw [List.filter_eq_self]
    intro c hc
    rw [isLowerSlug_not_mn (hmem c hc)]
    rfl
  rw [h2]
  have h3 : pyStrip isPySpace s = s := by
    rw [pyStrip,
      dropWhile_id (fun c hc => isLowerSlug_not_space (hmem c (List.mem_of_mem_head? hc)))]
    exact dropTrailing_id
      (fun c hc => isLowerSlug_not_space (hmem c (List.mem_of_getLast?_eq_some hc)))
  rw [h3]
  have h4 : subRuns isPySpace '_' s = s := by
    rw [subRuns]
    exact subRunsGo_id (fun c hc => isLowerSlug_not_space (hmem c hc)) false
  rw [h4]
  have h5 : s.map (fun c => if isPyWord c then c else '_') = s := by
    have hcong : ∀ c ∈ s, (if isPyWord c = true then c else '_') = c :=
      fun c hc => if_pos (isLowerSlug_word (hmem c hc))
    rw [List.map_congr_left hcong]
    exact List.map_id s
  rw [h5]
  have h6 : subRuns (fun c => c = '_') '_' s = s := by
    rw [subRuns]
    exact (subRunsGo_noDD_id hnodd).1
  rw [h6]
  have h7 : pyStrip (fun c => c = '_') s = s := by
    have hh : ∀ c, s.head? = some c → (fun c => decide (c = '_')) c = false := by
      intro c hc
      simp only [decide_eq_false_iff_not]
      intro hcu
      subst hcu
      exact hhead hc
    have hl : ∀ c, s.getLast? = some c → (fun c => decide (c = '_')) c = false := by
      intro c hc
      simp only [decide_eq_false_iff_not]
      intro hcu
      subst hcu
      exact hlast hc
    rw [pyStrip, dropWhile_id hh]
    exact dropTrailing_id hl
  rw [h7]
  have h8 : s.map pyLower = s := by
    rw [List.map_congr_left (fun c hc => isLowerSlug_lower (hmem c hc))]
    exact List.map_id s
  rw [h8]
  rw [if_neg hne]

theorem goodSlug_suffix_append {b : PyStr} (h : goodSlug b) (k : Nat) :
    goodSlug (b ++ '_' :: natToString k) := by
  obtain ⟨hne, hmem, hhead, hlast, hnodd⟩ := h
  have hdig := natToString_digits k
  have hdne := natToString_ne_nil k
  refine ⟨by simp, ?_, ?_, ?_, ?_⟩
  · intro c hc
    rcases List.mem_append.1 hc with hc | hc
    · exact hmem c hc
    · rcases List.mem_cons.1 hc with rfl | hc
      · decide
      · have hd := hdig c hc
        simp only [isLowerSlug, Bool.or_eq_true, decide_eq_true_eq]
        omega
  · rw [List.head?_append_of_ne_nil _ hne]
    exact hhead
  · rw [List.getLast?_append_of_ne_nil b (by simp : ('_' :: natToString k) ≠ [])]
    have hcons : ('_' :: natToString k).getLast? = (natToString k).getLast? := by
      have hrw : ('_' :: natToString k) = ['_'] ++ natToString k := rfl
      rw [hrw, List.getLast?_append_of_ne_nil _ hdne]
    rw [hcons]
    intro hl2
    exact isLowerSlug_ne_underscore_of_digit
      (hdig _ (List.mem_of_getLast?_eq_some hl2)) rfl
  · rw [noDD, List.chain'_append]
    refine ⟨hnodd, ?_, ?_⟩
    · rw [List.chain'_cons']
      refine ⟨?_, noDD_of_no_underscore
        (fun c hc => isLowerSlug_ne_underscore_of_digit (hdig c hc))⟩
      intro y hy con
      exact isLowerSlug_ne_underscore_of_digit
        (hdig y (List.mem_of_mem_head? hy)) con.2
    · intro x hx y _ con
      rw [Option.mem_def] at hx
      rw [con.1] at hx
      exact hlast hx

theorem outputs_good {cols : List PyStr}
    (h : ∀ col ∈ cols, ∀ c ∈ col, decompAscii c = true) :
    ∀ m, ∀ nm ∈ normalizeColumnsGo m cols, goodSlug nm := by
  induction cols with
  | nil => intro m nm hnm; simp [normalizeColumnsGo] at hnm
  | cons col rest ih =>
    intro m nm hnm
    have hcol : goodSlug (normalize_string col) :=
      normalize_string_good (h col (List.mem_cons_self col rest))
    have hrest : ∀ col' ∈ rest, ∀ c ∈ col', decompAscii c = true :=
      fun col' hc' => h col' (List.mem_cons_of_mem col hc')
    unfold normalizeColumnsGo at hnm
    cases hl : lookupCount m (normalize_string col) with
    | some k =>
      rw [hl] at hnm
      rcases List.mem_cons.1 hnm with rfl | hnm
      · exact goodSlug_suffix_append hcol (k + 1)
      · exact ih hrest _ nm hnm
    | none =>
      rw [hl] at hnm
      rcases List.mem_cons.1 hnm with rfl | hnm
      · exact hcol
      · exact ih hrest _ nm hnm

theorem nodup_take_count {ns : List PyStr} (h : ns.Nodup) {i : Nat} {n : PyStr}
    (hn : ns[i]? = some n) : (ns.take i).count n = 0 := by
  rw [List.count_eq_zero]
  intro hmem
  have hi : i < ns.length := by
    by_contra hlt
    rw [List.getElem?_eq_none (by omega)] at hn
    cases hn
  have hsplit := List.take_append_drop i ns
  have hnodup2 : (ns.take i ++ ns.drop i).Nodup := by rw [hsplit]; exact h
  have hdisj := (List.nodup_append.1 hnodup2).2.2
  apply hdisj hmem
  have hdrop : (ns.drop i)[0]? = some n := by
    rw [List.getElem?_drop]
    simpa using hn
  rw [← List.head?_eq_getElem?] at hdrop
  exact List.mem_of_mem_head? hdrop

theorem go_id_of_nodup {ns : List PyStr} (hfix : ∀ n ∈ ns, normalize_string n = n)
    (hnodup : ns.Nodup) : normalizeColumnsGo [] ns = ns := by
  apply List.ext_getElem?
  intro i
  have h0 : mkCounts [] = ([] : List (PyStr × Nat)) := rfl
  have hmain := normalizeColumnsGo_getElem ns [] i
  rw [h0] at hmain
  rw [hmain]
  have hmapid : ns.map normalize_string = ns := by
    rw [List.map_congr_left hfix]
    exact List.map_id ns
  rw [hmapid]
  simp only [List.nil_append]
  cases hn : ns[i]? with
  | none => rfl
  | some n =>
    simp only [Option.map_some']
    rw [nodup_take_count hnodup hn]
    simp [suffixName]

/-- Claim C2 (amended): every name returned by `normalize_column_names`
is non-empty; it matches `^[a-z0-9_]+$` provided every input character's
NFD decomposition consists of ASCII characters and combining marks (in
general a non-ASCII word character such as `ß` survives lower-cased,
violating the charset — see the counterexample). -/
theorem claim_C2_amended (df : DataFrame)
    (h : ∀ col ∈ df.columns, ∀ c ∈ col, decompAscii c = true) :
    ∀ nm ∈ (normalize_column_names df).columns, matchesLowerSlug nm = true := by
  intro nm hnm
  have hg : goodSlug nm := outputs_good h [] nm hnm
  obtain ⟨hne, hmem, _, _, _⟩ := hg
  simp only [matchesLowerSlug, Bool.and_eq_true, Bool.not_eq_true', List.isEmpty_eq_false,
    List.all_eq_true]
  exact ⟨hne, hmem⟩

/-- Witness for the amended C2 at the spec's own example table. -/
theorem claim_C2_amended_witness :
    matchesLowerSlug ("preco".toList) = true
    ∧ "preco".toList ∈ (normalize_column_names dfPreco).columns := by
  have hmem : "preco".toList ∈ (normalize_column_names dfPreco).columns := by decide
  exact ⟨claim_C2_amended dfPreco (by decide) ("preco".toList) hmem, hmem⟩

/-- Claim C8 (amended): `normalize_column_names` is idempotent on every
table (with ASCII-decomposable column names) whose output names are
pairwise distinct — i.e. whenever the uniqueness guarantee holds.  When
a collision suffix coincides with a later column's bare normalized form
the output has duplicates and a second application changes it (see the
counterexample). -/
theorem claim_C8_amended (df : DataFrame)
    (h : ∀ col ∈ df.columns, ∀ c ∈ col, decompAscii c = true)
    (hnodup : (normalize_column_names df).columns.Nodup) :
    normalize_column_names (normalize_column_names df) = normalize_column_names df := by
  have hfix : ∀ nm ∈ (normalize_column_names df).columns, normalize_string nm = nm :=
    fun nm hnm => normalize_string_fixed (outputs_good h [] nm hnm)
  have hcols : normalizeColumnsGo [] (normalize_column_names df).columns
      = (normalize_column_names df).columns := go_id_of_nodup hfix hnodup
  rw [normalize_column_names, hcols]

/-- Witness for the amended C8 at the spec's example table. -/
theorem claim_C8_amended_witness :
    normalize_column_names (normalize_column_names dfPreco) = normalize_column_names dfPreco := by
  exact claim_C8_amended dfPreco (by decide) (by decide)

theorem char_valid (c : Char) :
    c.toNat < 0xD800 ∨ (0xE000 ≤ c.toNat ∧ c.toNat < 0x110000) := by
  rcases c with ⟨v, h⟩
  simpa [UInt32.isValidChar, Nat.isValidChar, Char.toNat] using h


theorem utf8EncodeChar_ne_nil (n : Nat) : utf8EncodeChar n ≠ [] := by
  rw [utf8EncodeChar]
  split_ifs <;> simp

theorem decodeUtf8Step_encode (c : Char) (rest : List Nat) :
    ∃ b tail, utf8EncodeChar c.toNat = b :: tail ∧
      decodeUtf8Step b (tail ++ rest) = some (c, rest) := by
  have hval := char_valid c
  by_cases h1 : c.toNat < 0x80
  · refine ⟨c.toNat, [], by rw [utf8EncodeChar, if_pos h1], ?_⟩
    rw [decodeUtf8Step.eq_def, if_pos h1, Char.ofNat_toNat, List.nil_append]
  · by_cases h2 : c.toNat < 0x800
    · refine ⟨0xC0 + c.toNat / 64, [0x80 + c.toNat % 64],
        by rw [utf8EncodeChar, if_neg h1, if_pos h2], ?_⟩
      have hb0 : ¬ (0xC0 + c.toNat / 64 < 0x80) := by omega
      have hb1 : ¬ (0xC0 + c.toNat / 64 < 0xC2) := by omega
      have hb2 : 0xC0 + c.toNat / 64 < 0xE0 := by omega
      have hcont : isCont (0x80 + c.toNat % 64) = true := by
        simp only [isCont, decide_eq_true_eq]
        omega
      rw [decodeUtf8Step.eq_def, if_neg hb0, if_neg hb1, if_pos hb2]
      simp only [List.cons_append, List.nil_append, hcont, if_true]
      have harg : (0xC0 + c.toNat / 64 - 0xC0) * 64 + (0x80 + c.toNat % 64 - 0x80)
          = c.toNat := by omega
      rw [harg, Char.ofNat_toNat]
    · by_cases h3 : c.toNat < 0x10000
      · refine ⟨0xE0 + c.toNat / 4096, [0x80 + (c.toNat / 64) % 64, 0x80 + c.toNat % 64],
          by rw [utf8EncodeChar, if_neg h1, if_neg h2, if_pos h3], ?_⟩
        have hb0 : ¬ (0xE0 + c.toNat / 4096 < 0x80) := by omega
        have hb1 : ¬ (0xE0 + c.toNat / 4096 < 0xC2) := by omega
        have hb2 : ¬ (0xE0 + c.toNat / 4096 < 0xE0) := by omega
        have hb3 : 0xE0 + c.toNat / 4096 < 0xF0 := by omega
        have hcont1 : isCont (0x80 + (c.toNat / 64) % 64) = true := by
          simp only [isCont, decide_eq_true_eq]
          omega
        have hcont2 : isCont (0x80 + c.toNat % 64) = true := by
          simp only [isCont, decide_eq_true_eq]
          omega
        rw [decodeUtf8Step.eq_def, if_neg hb0, if_neg hb1, if_neg hb2, if_pos hb3]
        simp only [List.cons_append, List.nil_append, hcont1, hcont2, Bool.and_self, if_true]
        have harg : (0xE0 + c.toNat / 4096 - 0xE0) * 4096
            + (0x80 + (c.toNat / 64) % 64 - 0x80) * 64 + (0x80 + c.toNat % 64 - 0x80)
            = c.toNat := by omega
        rw [harg]
        have hg1 : ¬ (c.toNat < 0x800) := h2
        have hg2 : ¬ (0xD800 ≤ c.toNat ∧ c.toNat < 0xE000) := by omega
        rw [if_neg hg1, if_neg hg2, Char.ofNat_toNat]
      · refine ⟨0xF0 + c.toNat / 262144,
          [0x80 + (c.toNat / 4096) % 64, 0x80 + (c.toNat / 64) % 64, 0x80 + c.toNat % 64],
          by rw [utf8EncodeChar, if_neg h1, if_neg h2, if_neg h3], ?_⟩
        have hub : c.toNat < 0x110000 := by omega
        have hb0 : ¬ (0xF0 + c.toNat / 262144 < 0x80) := by omega
        have hb1 : ¬ (0xF0 + c.toNat / 262144 < 0xC2) := by omega
        have hb2 : ¬ (0xF0 + c.toNat / 262144 < 0xE0) := by omega
        have hb3 : ¬ (0xF0 + c.toNat / 262144 < 0xF0) := by omega
        have hb4 : 0xF0 + c.toNat / 262144 < 0xF5 := by omega
        have hcont1 : isCont (0x80 + (c.toNat / 4096) % 64) = true := by
          simp only [isCont, decide_eq_true_eq]
          omega
        have hcont2 : isCont (0x80 + (c.toNat / 64) % 64) = true := by
          simp only [isCont, decide_eq_true_eq]
          omega
        have hcont3 : isCont (0x80 + c.toNat % 64) = true := by
          simp only [isCont, decide_eq_true_eq]
          omega
        rw [decodeUtf8Step.eq_def, if_neg hb0, if_neg hb1, if_neg hb2, if_neg hb3, if_pos hb4]
        simp only [List.cons_append, List.nil_append, hcont1, hcont2, hcont3,
          Bool.and_self, if_true]
        have harg : (0xF0 + c.toNat / 262144 - 0xF0) * 262144
            + (0x80 + (c.toNat / 4096) % 64 - 0x80) * 4096
            + (0x80 + (c.toNat / 64) % 64 - 0x80) * 64 + (0x80 + c.toNat % 64 - 0x80)
            = c.toNat := by omega
        rw [harg]
        have hg1 : ¬ (c.toNat < 0x10000) := h3
        have hg2 : ¬ (0x110000 ≤ c.toNat) := by omega
        rw [if_neg hg1, if_neg hg2, Char.ofNat_toNat]

theorem decodeUtf8Core_nil (fuel : Nat) : decodeUtf8Core fuel [] = some [] := by
  cases fuel <;> rfl

theorem decodeUtf8Core_encode (s : PyStr) :
    ∀ fuel, (utf8Encode s).length ≤ fuel → decodeUtf8Core fuel (utf8Encode s) = some s := by
  induction s with
  | nil => intro fuel _; exact decodeUtf8Core_nil fuel
  | cons c srest ih =>
    intro fuel hfuel
    obtain ⟨b, tail, he, hstep⟩ := decodeUtf8Step_encode c (utf8Encode srest)
    have henc : utf8Encode (c :: srest) = b :: (tail ++ utf8Encode srest) := by
      rw [utf8Encode, List.flatMap_cons, he]
      rfl
    rw [henc] at hfuel ⊢
    have hlen : (tail ++ utf8Encode srest).length < fuel := by
      simp only [List.length_cons] at hfuel
      omega
    cases fuel with
    | zero => omega
    | succ fuel =>
      rw [decodeUtf8Core, hstep]
      have hlen2 : (utf8Encode srest).length ≤ fuel := by
        have := List.length_append tail (utf8Encode srest)
        simp only [List.length_cons] at hfuel
        omega
      show (decodeUtf8Core fuel (utf8Encode srest)).map (fun t => c :: t) = some (c :: srest)
      rw [ih fuel hlen2]
      rfl

theorem decodeUtf8_encode (s : PyStr) : decodeUtf8 (utf8Encode s) = some s :=
  decodeUtf8Core_encode s (utf8Encode s).length (Nat.le_refl _)

theorem decodeLatin1_encode {s : PyStr} :
    ∀ {bs : List Nat}, latin1Encode s = some bs → decodeLatin1 bs = s := by
  induction s with
  | nil =>
    intro bs h
    rw [latin1Encode, List.mapM_nil] at h
    cases h
    rfl
  | cons c srest ih =>
    intro bs h
    rw [latin1Encode, List.mapM_cons] at h
    cases hc : encodeLatin1Char c with
    | none => rw [hc] at h; cases h
    | some b =>
      rw [hc] at h
      cases hrest : srest.mapM encodeLatin1Char with
      | none => rw [hrest] at h; cases h
      | some bsr =>
        rw [hrest] at h
        simp only [Option.bind_some, Option.map_some', Option.pure_def, Option.bind_eq_bind,
          Option.some_bind] at h
        cases h
        have hb : b = c.toNat ∧ c.toNat < 256 := by
          rw [encodeLatin1Char] at hc
          by_cases hlt : c.toNat < 256
          · rw [if_pos hlt] at hc
            exact ⟨(Option.some.inj hc).symm, hlt⟩
          · rw [if_neg hlt] at hc
            cases hc
        rw [decodeLatin1, List.map_cons]
        have := @ih bsr (by rw [latin1Encode, hrest])
        rw [decodeLatin1] at this
        rw [this, hb.1, Char.ofNat_toNat]

theorem cp1252Encode_agreeing {s : PyStr} (hag : ∀ c ∈ s, latin1Agreeing c = true) :
    ∀ {bs : List Nat}, cp1252Encode s = some bs → decodeLatin1 bs = s := by
  induction s with
  | nil =>
    intro bs h
    rw [cp1252Encode, List.mapM_nil] at h
    cases h
    rfl
  | cons c srest ih =>
    intro bs h
    rw [cp1252Encode, List.mapM_cons] at h
    have hagc : c.toNat < 0x80 ∨ (0xA0 ≤ c.toNat ∧ c.toNat < 0x100) := by
      have := hag c (List.mem_cons_self c srest)
      simpa [latin1Agreeing, decide_eq_true_eq] using this
    have hc : encodeCp1252Char c = some c.toNat := by
      rw [encodeCp1252Char, if_pos hagc]
    rw [hc] at h
    cases hrest : srest.mapM encodeCp1252Char with
    | none => rw [hrest] at h; cases h
    | some bsr =>
      rw [hrest] at h
      simp only [Option.bind_some, Option.map_some', Option.pure_def, Option.bind_eq_bind,
        Option.some_bind] at h
      cases h
      rw [decodeLatin1, List.map_cons]
      have hrec := @ih (fun c' hc' => hag c' (List.mem_cons_of_mem c hc'))
        bsr (by rw [cp1252Encode, hrest])
      rw [decodeLatin1] at hrec
      rw [hrec, Char.ofNat_toNat]

theorem readCsvText_utf8 {bs : List Nat} {t : PyStr} (h : decodeUtf8 bs = some t) :
    readCsvText bs = t := by
  simp [readCsvText, decodeLoop, encodings, pyDecode, h]

theorem readCsvText_latin1 {bs : List Nat} (h : decodeUtf8 bs = none) :
    readCsvText bs = decodeLatin1 bs := by
  simp [readCsvText, decodeLoop, encodings, pyDecode, h]

/-- Claim C3 (amended): ingestion round-trips the cell text when the
chosen encoding is actually the first candidate that decodes: (a) for
UTF-8 always; (b) for Latin-1 — and ISO-8859-1, whose Python codec is
the same byte map — provided the encoded bytes are not valid UTF-8 (if
they are, the UTF-8 attempt wins with different text, see the
counterexample pattern); (c) for Windows-1252 additionally provided the
text avoids the CP1252-specific 0x80-0x9F block (e.g. `€`), on which
cp1252 and latin-1 disagree; and (d) a successfully decoded-and-parsed
table is returned by `read_csv_file` with its rows — the cell values —
unchanged by column normalization. -/
theorem claim_C3_amended :
    (∀ text, hasNonAscii text = true → readCsvText (utf8Encode text) = text)
    ∧ (∀ text bs, latin1Encode text = some bs → decodeUtf8 bs = none →
        readCsvText bs = text)
    ∧ (∀ text bs, cp1252Encode text = some bs → (∀ c ∈ text, latin1Agreeing c = true) →
        decodeUtf8 bs = none → readCsvText bs = text)
    ∧ (∀ sys f bs text df, readCsvText bs = text → parseCsv text = some df →
        (read_csv_file sys bs f false).1
          = (some (normalize_column_names df), some (joinPath dataDir f))
        ∧ (normalize_column_names df).rows = df.rows) := by
  refine ⟨?_, ?_, ?_, ?_⟩
  · intro text _
    exact readCsvText_utf8 (decodeUtf8_encode text)
  · intro text bs henc hfail
    rw [readCsvText_latin1 hfail, decodeLatin1_encode henc]
  · intro text bs henc hag hfail
    rw [readCsvText_latin1 hfail, cp1252Encode_agreeing hag henc]
  · intro sys f bs text df hrt hp
    have hpb : parseCsvBytes bs = some df := by
      rw [parseCsvBytes, hrt]
      exact hp
    constructor
    · simp only [read_csv_file, Bool.false_eq_true, if_false, hpb]
    · rfl

/-- Witness for the amended C3: `é` through UTF-8 and through Latin-1
(bytes `E9`, invalid as UTF-8), and the full `read_csv_file` result on
`b"a,b\n1,2\n"`. -/
theorem claim_C3_amended_witness :
    hasNonAscii ['é'] = true
    ∧ readCsvText (utf8Encode ['é']) = ['é']
    ∧ readCsvText [0xE9] = ['é']
    ∧ (read_csv_file Sys.init bytesAB ("x.csv".toList) false).1
        = (some (normalize_column_names
            { columns := ["a".toList, "b".toList], rows := [[some ['1'], some ['2']]] }),
           some (joinPath dataDir ("x.csv".toList))) := by
  refine ⟨by decide, claim_C3_amended.1 ['é'] (by decide),
    claim_C3_amended.2.1 ['é'] [0xE9] (by decide) (by decide), ?_⟩
  exact (claim_C3_amended.2.2.2 Sys.init ("x.csv".toList) bytesAB
    ("a,b\n1,2\n".toList)
    { columns := ["a".toList, "b".toList], rows := [[some ['1'], some ['2']]] }
    (by decide) (by decide)).1

theorem read_csv_file_parse_some {sys : Sys} {bs : List Nat} {f : PyStr} {df : DataFrame}
    (h : parseCsvBytes bs = some df) :
    read_csv_file sys bs f false
      = ((some (normalize_column_names df), some (joinPath dataDir f)),
         { dirExists := true, files := fsWrite sys.files f bs, msgs := sys.msgs }) := by
  simp only [read_csv_file, Bool.false_eq_true, if_false, h]

theorem read_csv_file_parse_none {sys : Sys} {bs : List Nat} {f : PyStr}
    (h : parseCsvBytes bs = none) :
    read_csv_file sys bs f false
      = ((none, none),
         { dirExists := true, files := fsRemove (fsWrite sys.files f bs) f,
           msgs := sys.msgs ++ [PyMsg.errorReadCsv f] }) := by
  simp only [read_csv_file, Bool.false_eq_true, if_false, h]

theorem dictInsert_append {α : Type} {d : List (PyStr × α)} {k : PyStr} {v : α}
    (h : k ∉ d.map Prod.fst) : dictInsert d k v = d ++ [(k, v)] := by
  induction d with
  | nil => rfl
  | cons p d ih =>
    obtain ⟨k', v'⟩ := p
    rw [List.map_cons, List.mem_cons] at h
    push_neg at h
    have hne : ¬ k' = k := fun he => h.1 he.symm
    rw [dictInsert, if_neg hne, ih h.2]
    rfl

theorem processZipEntryCsv_read_fails {s : Sys} {d : List (PyStr × (DataFrame × PyStr))}
    {e : ZipEntry} (hc : e.content = none) :
    processZipEntryCsv s d e
      = (d, { s with msgs := s.msgs ++ [PyMsg.warningEntry e.filename] }) := by
  unfold processZipEntryCsv
  rw [hc]

theorem processZipEntryCsv_ok {s : Sys} {d : List (PyStr × (DataFrame × PyStr))}
    {e : ZipEntry} {bs : List Nat} {df : DataFrame}
    (hc : e.content = some bs) (hpb : parseCsvBytes bs = some df) :
    processZipEntryCsv s d e
      = (dictInsert d e.filename (normalize_column_names df, joinPath dataDir e.filename),
         { dirExists := true, files := fsWrite s.files e.filename bs, msgs := s.msgs }) := by
  simp only [processZipEntryCsv, hc]
  rw [read_csv_file_parse_some hpb]

theorem processZipEntryCsv_parse_fails {s : Sys} {d : List (PyStr × (DataFrame × PyStr))}
    {e : ZipEntry} {bs : List Nat}
    (hc : e.content = some bs) (hpb : parseCsvBytes bs = none) :
    processZipEntryCsv s d e
      = (d, { dirExists := true, files := fsRemove (fsWrite s.files e.filename bs) e.filename,
              msgs := s.msgs ++ [PyMsg.errorReadCsv e.filename] }) := by
  simp only [processZipEntryCsv, hc]
  rw [read_csv_file_parse_none hpb]

theorem dictInsert_keys {α : Type} (d : List (PyStr × α)) (k : PyStr) (v : α) :
    (dictInsert d k v).map Prod.fst
      = if k ∈ d.map Prod.fst then d.map Prod.fst else d.map Prod.fst ++ [k] := by
  induction d with
  | nil =>
    rw [show dictInsert ([] : List (PyStr × α)) k v = [(k, v)] from rfl]
    rw [List.map_nil, if_neg (List.not_mem_nil k)]
    rfl
  | cons p d ih =>
    obtain ⟨k', v'⟩ := p
    by_cases h : k' = k
    · rw [dictInsert, if_pos h]
      rw [List.map_cons, List.map_cons, h]
      rw [if_pos (List.mem_cons_self k _)]
    · rw [dictInsert, if_neg h]
      simp only [List.map_cons]
      rw [ih]
      by_cases hm : k ∈ d.map Prod.fst
      · simp [hm, h]
      · have hne : ¬ k = k' := fun he => h he.symm
        simp [hm, hne]

theorem processZipGo_keys (entries : List ZipEntry) :
    ∀ (s : Sys) (d : List (PyStr × (DataFrame × PyStr))),
      (processZipGo entries s d).1.map Prod.fst
        = d.map Prod.fst
          ++ addNew (d.map Prod.fst) ((entries.filter entrySucceeds).map ZipEntry.filename) := by
  induction entries with
  | nil =>
    intro s d
    simp [processZipGo, addNew]
  | cons e rest ih =>
    intro s d
    unfold processZipGo
    by_cases hdir : e.isDir = true
    · have hef : entrySucceeds e = false := by simp [entrySucceeds, hdir]
      rw [if_pos hdir, List.filter_cons_of_neg (by simp [hef])]
      exact ih s d
    · rw [if_neg hdir]
      by_cases hext : extOf e.filename = "csv".toList
      · rw [if_pos hext]
        cases hc : e.content with
        | none =>
          have hef : entrySucceeds e = false := by simp [entrySucceeds, hc]
          rw [List.filter_cons_of_neg (by simp [hef]), processZipEntryCsv_read_fails hc]
          exact ih _ d
        | some bs =>
          cases hpb : parseCsvBytes bs with
          | some df =>
            have hef : entrySucceeds e = true := by
              simp [entrySucceeds, hdir, hext, hc, hpb]
            rw [List.filter_cons_of_pos (by simp [hef]), processZipEntryCsv_ok hc hpb]
            rw [ih _ (dictInsert d e.filename
              (normalize_column_names df, joinPath dataDir e.filename))]
            rw [dictInsert_keys]
            simp only [List.map_cons]
            by_cases hm : e.filename ∈ d.map Prod.fst
            · rw [if_pos hm, addNew, if_pos hm]
            · rw [if_neg hm, addNew, if_neg hm]
              simp [List.append_assoc]
          | none =>
            have hef : entrySucceeds e = false := by simp [entrySucceeds, hc, hpb]
            rw [List.filter_cons_of_neg (by simp [hef]), processZipEntryCsv_parse_fails hc hpb]
            exact ih _ d
      · have hext' : extOf e.filename ≠ ['c', 's', 'v'] := by simpa using hext
        have hef : entrySucceeds e = false := by simp [entrySucceeds, hext']
        rw [if_neg hext, List.filter_cons_of_neg (by simp [hef])]
        exact ih s d

theorem processZipGo_msgs (entries : List ZipEntry) :
    ∀ (s : Sys) (d : List (PyStr × (DataFrame × PyStr))),
      (processZipGo entries s d).2.msgs = s.msgs ++ entries.flatMap entryMsgs := by
  induction entries with
  | nil =>
    intro s d
    simp [processZipGo]
  | cons e rest ih =>
    intro s d
    unfold processZipGo
    by_cases hdir : e.isDir = true
    · have hm : entryMsgs e = [] := by simp [entryMsgs, hdir]
      rw [if_pos hdir, ih s d, List.flatMap_cons, hm, List.nil_append]
    · rw [if_neg hdir]
      by_cases hext : extOf e.filename = "csv".toList
      · rw [if_pos hext]
        cases hc : e.content with
        | none =>
          have hm : entryMsgs e = [PyMsg.warningEntry e.filename] := by
            simp [entryMsgs, hdir, hext, hc]
          rw [processZipEntryCsv_read_fails hc, ih _ d]
          simp [List.flatMap_cons, hm, List.append_assoc]
        | some bs =>
          cases hpb : parseCsvBytes bs with
          | some df =>
            have hm : entryMsgs e = [] := by
              simp [entryMsgs, hdir, hext, hc, hpb]
            rw [processZipEntryCsv_ok hc hpb, ih _ _, List.flatMap_cons, hm, List.nil_append]
          | none =>
            have hm : entryMsgs e = [PyMsg.errorReadCsv e.filename] := by
              simp [entryMsgs, hdir, hext, hc, hpb]
            rw [processZipEntryCsv_parse_fails hc hpb, ih _ d]
            simp [List.flatMap_cons, hm, List.append_assoc]
      · have hext' : extOf e.filename ≠ ['c', 's', 'v'] := by simpa using hext
        have hm : entryMsgs e = [] := by simp [entryMsgs, hdir, hext']
        rw [if_neg hext, ih s d, List.flatMap_cons, hm, List.nil_append]

/-- Claim C5 (amended): `process_zip_file` routes exactly the
non-directory entries with lowercased extension `csv` through
`read_csv_file` and returns the mapping of the successful subset: its
keys are the successfully read-and-parsed entries' names in
first-insertion dict order (a repeated name collapses into the
existing entry).  Every failing entry is skipped while the rest
proceed, with a recorded message — the per-entry `st.warning` when
reading the archive member raises, but `read_csv_file`'s own
`st.error` (never that warning) when the entry's bytes fail to parse.
An archive with 3 CSV entries and 1 non-CSV entry yields exactly 3
results, and 1 corrupt CSV entry among 2 valid ones yields exactly
**2** results (one per valid entry, no exception raised) — not 1 as
the claim stated. -/
theorem claim_C5_amended :
    (∀ (entries : List ZipEntry) (sys : Sys),
        (process_zip_file sys (some entries)).1.map Prod.fst
          = addNew [] ((entries.filter entrySucceeds).map ZipEntry.filename))
    ∧ (∀ (entries : List ZipEntry) (sys : Sys),
        (process_zip_file sys (some entries)).2.msgs
          = sys.msgs ++ entries.flatMap entryMsgs)
    ∧ (process_zip_file Sys.init (some zipThreeCsvOneOther)).1.length = 3
    ∧ (process_zip_file Sys.init (some zipTwoValidOneCorrupt)).1.length = 2 := by
  refine ⟨?_, ?_, by decide, by decide⟩
  · intro entries sys
    have hmain := processZipGo_keys entries sys []
    simpa [process_zip_file] using hmain
  · intro entries sys
    have hmain := processZipGo_msgs entries sys []
    simpa [process_zip_file] using hmain

/-- Witness for the amended C5, applying its universal parts at the
3-CSV archive (keys) and the 2-valid-1-corrupt archive (messages). -/
theorem claim_C5_amended_witness :
    (process_zip_file Sys.init (some zipThreeCsvOneOther)).1.map Prod.fst
      = addNew [] ((zipThreeCsvOneOther.filter entrySucceeds).map ZipEntry.filename)
    ∧ (process_zip_file Sys.init (some zipTwoValidOneCorrupt)).2.msgs
        = Sys.init.msgs ++ zipTwoValidOneCorrupt.flatMap entryMsgs :=
  ⟨claim_C5_amended.1 zipThreeCsvOneOther Sys.init,
   claim_C5_amended.2.1 zipTwoValidOneCorrupt Sys.init⟩
